import Mathlib

/-!
# sectview: the section-table reader of `main.c`

A shallow embedding of `disp_sections`, `safe_fread` and `draw` from `main.c`.

Conventions of the embedding (an LP64, little-endian host, as the program reads
every field in host byte order):

* an input file is a `List Byte`; a `FILE` is the file's bytes with a position,
  the file system the file is on and the error indicator of the stream;
* `ERR(...)` prints a message and calls `exit(EXIT_FAILURE)`: the run stops with
  the matching `Stop` value and nothing after it happens;
* a read outside an allocated object (a field of `shdr` beyond `shent_sz` bytes,
  a `%s` that runs off `strtbl`) has no behaviour defined by C: the run stops with
  `Stop.undefined_read`;
* `malloc`/`calloc` belong to the C library: whether a request of `n` bytes
  succeeds is given by the parameter `heap : Nat → Bool`;
* which seeks the file system accepts, and whether a short read is the end of the
  file or a read error (the `ferror` branch of `safe_fread`), is given by the
  parameter `fs : FileSys`; a read that finds all its bytes in the file succeeds.
-/

namespace Sectview

set_option autoImplicit false
set_option maxRecDepth 100000

/-! ## Bytes, files and the C library calls the program makes -/

/-- One byte of a file or of memory. -/
abbrev Byte := Fin 256

/-- Why a run stops before `disp_sections` returns. The first seven are the `ERR`
messages of `main.c`; the last is a read outside an allocated object. -/
inductive Stop
  /-- "Could not read requested amount from input file" (`safe_fread`). -/
  | read_amount
  /-- "Error %d reading from input file" (`safe_fread`, the `ferror` branch). -/
  | read_error
  /-- "This is not an ELF file". -/
  | not_elf
  /-- "Unknown binary word-size". -/
  | word_size
  /-- "Could not allocate enough memory to parse a section header". -/
  | alloc_shdr
  /-- "Could not allocate enough memory to store the string table". -/
  | alloc_strtbl
  /-- "Could not allocate enough memory to store section data". -/
  | alloc_sects
  /-- A read outside an allocated object: behaviour not defined by C. -/
  | undefined_read
  deriving DecidableEq, Repr

/-- What the file system that holds the input decides for a stream; the input is
a regular file on a sound device.

`max_offset` is the largest offset a seek may ask for: beyond it `lseek` fails
with EINVAL (`2^44 - 4096` on ext4 with 4 KiB blocks, `2^63 - 1` on tmpfs). The
file systems covered accept at least the offsets a 32-bit field can hold
(`max_offset_ge`), as ext4, XFS, Btrfs, tmpfs and FAT32 do.

`io_error p sz` tells whether a read of `sz` bytes at position `p` that does not
find all its bytes ends with the error indicator of the stream set, and not at
the end of the file. The kernel refuses a read whose end would pass `LONG_MAX`, so
that can only happen to a read that reaches far (`io_error_far`); a short read in
the first `2^62` bytes is the end of the file. -/
structure FileSys where
  max_offset : Nat
  io_error : Nat → Nat → Bool
  max_offset_ge : 2 ^ 32 - 1 ≤ max_offset
  io_error_far : ∀ p sz, io_error p sz = true → 2 ^ 62 ≤ p + sz

/-- An open stream: the file's bytes, the current position, the file system the
file is on and the error indicator. -/
structure FILE where
  data : List Byte
  pos : Nat
  fs : FileSys
  err : Bool

/-- The stream `fopen(fname, "r")` returns: positioned at the start, its error
indicator clear. -/
def fopen (fs : FileSys) (bytes : List Byte) : FILE := ⟨bytes, 0, fs, false⟩

/-- The call `fread(buf, 1, sz, fp)`: the bytes available from the position, at
most `sz` of them, and the stream advanced past them. When fewer than `sz` bytes
were found the file system tells whether that was the end of the file or a read
error, which sets the error indicator. -/
def fread (sz : Nat) (fp : FILE) : List Byte × FILE :=
  let got := (fp.data.drop fp.pos).take sz
  (got, { fp with
    pos := fp.pos + got.length
    err := fp.err || (decide (got.length < sz) && fp.fs.io_error fp.pos sz) })

/-- The call `ferror(fp)`, as a truth value. -/
def ferror (fp : FILE) : Bool := fp.err

/-- The function `safe_fread` (main.c:48-59): exit unless `sz` bytes were read,
with one message when the error indicator is set and another when it is not. -/
def safe_fread (sz : Nat) (fp : FILE) : Except Stop (List Byte × FILE) :=
  let r := fread sz fp
  if r.1.length ≠ sz then
    if ferror r.2 then .error .read_error else .error .read_amount
  else .ok r

/-- How `safe_fread` stops when a read of `sz` bytes at position `p` comes back
short on a stream whose error indicator was clear. -/
def short_read (fs : FileSys) (p sz : Nat) : Stop :=
  if fs.io_error p sz then .read_error else .read_amount

/-- The call `rewind(fp)`: back to the start, error indicator cleared. -/
def rewind (fp : FILE) : FILE := { fp with pos := 0, err := false }

/-- Whether `fseek(fp, off, SEEK_SET)` succeeds on a file of `len` bytes: `off`
must be a non-negative `long`, and it must not lie above the largest offset the
file system accepts unless it lies inside the file (a file system holds no file
longer than it can address). Seeking past the end of the file is allowed. -/
def can_seek (fs : FileSys) (len off : Nat) : Bool :=
  decide (off < 2 ^ 63) && (decide (off ≤ fs.max_offset) || decide (off ≤ len))

/-- Position of a stream that was at `p` after `fseek(fp, off, SEEK_SET)` with a
`uint64_t` argument `off`: the argument converts to `long`; when the seek fails
(EINVAL: a negative `long`, that is a value of `2^63` or more, or an offset above
the file system's maximum) the position stays where it was. -/
def seek_pos (fs : FileSys) (len p off : Nat) : Nat :=
  if can_seek fs len (off % 2 ^ 64) then off % 2 ^ 64 else p

/-- The call `fseek(fp, off, SEEK_SET)`; `main.c` never looks at what it returns. -/
def fseek (fp : FILE) (off : Nat) : FILE :=
  { fp with pos := seek_pos fp.fs fp.data.length fp.pos off }

/-- The `sz` bytes stored at file offset `p` (fewer when the file ends before). -/
def bytes_at (f : List Byte) (p sz : Nat) : List Byte := (f.drop p).take sz

/-- Value of a byte string read as an unsigned integer in host (little-endian)
byte order. -/
def le_nat : List Byte → Nat
  | [] => 0
  | b :: bs => b.val + 256 * le_nat bs

/-- Load of a `width`-byte unsigned integer at byte offset `off` of the object
`p`; outside the object the load is not defined. -/
def load (p : List Byte) (off width : Nat) : Except Stop Nat :=
  if off + width ≤ p.length then .ok (le_nat ((p.drop off).take width))
  else .error .undefined_read

/-! ## The structures of `<elf.h>` -/

/-- The two structure families the macros `E` and `E_SZ` name. -/
inductive Struct
  | Ehdr
  | Shdr
  deriving DecidableEq, Repr

/-- The members `main.c` reads. -/
inductive Member
  | e_shoff
  | e_shentsize
  | e_shnum
  | e_shstrndx
  | sh_name
  | sh_offset
  | sh_size
  deriving DecidableEq, Repr

/-- Modelled from the spec: the declarations of `Elf32_Ehdr` and `Elf32_Shdr` come
from the system header `<elf.h>`, which is not part of the source. Byte offset and
width of each member `main.c` reads, at the offsets the format defines: in the
52-byte file header `e_shoff` at 32..35, `e_shentsize` at 46..47, `e_shnum` at
48..49, `e_shstrndx` at 50..51; in a section entry `sh_name` at 0..3, `sh_offset` at
16..19, `sh_size` at 20..23. -/
def Elf32 : Member → Nat × Nat
  | .e_shoff => (32, 4)
  | .e_shentsize => (46, 2)
  | .e_shnum => (48, 2)
  | .e_shstrndx => (50, 2)
  | .sh_name => (0, 4)
  | .sh_offset => (16, 4)
  | .sh_size => (20, 4)

/-- Modelled from the spec: the declarations of `Elf64_Ehdr` and `Elf64_Shdr` come
from the system header `<elf.h>`, which is not part of the source. Byte offset and
width of each member `main.c` reads, at the offsets the format defines: in the
64-byte file header `e_shoff` at 40..47, `e_shentsize` at 58..59, `e_shnum` at
60..61, `e_shstrndx` at 62..63; in a section entry `sh_name` at 0..3, `sh_offset` at
24..31, `sh_size` at 32..39. -/
def Elf64 : Member → Nat × Nat
  | .e_shoff => (40, 8)
  | .e_shentsize => (58, 2)
  | .e_shnum => (60, 2)
  | .e_shstrndx => (62, 2)
  | .sh_name => (0, 4)
  | .sh_offset => (24, 8)
  | .sh_size => (32, 8)

/-- The macro `E(_b, _f, _s, _p)` (main.c:106-107): member `_f` of the structure
at `_p`, in the 32-bit layout when `_s == 32` and in the 64-bit layout otherwise.
Both arms are unsigned, so the value is the zero-extended member. -/
def E (f : Member) (s : Nat) (p : List Byte) : Except Stop Nat :=
  if s = 32 then load p (Elf32 f).1 (Elf32 f).2 else load p (Elf64 f).1 (Elf64 f).2

/-- The macro `E_SZ(_b, _s)` (main.c:109-110): `sizeof(Elf32_##_b)` when
`_s == 32`, `sizeof(Elf64_##_b)` otherwise. The four sizes are those of the
`<elf.h>` structures: 52 and 40 bytes in the 32-bit layout, 64 and 64 in the
64-bit layout. -/
def E_SZ (b : Struct) (s : Nat) : Nat :=
  if s = 32 then (match b with | .Ehdr => 52 | .Shdr => 40)
  else (match b with | .Ehdr => 64 | .Shdr => 64)

/-- The file header as line 142 reads it: the first `E_SZ(Ehdr, bits)` bytes. -/
def ehdr (bits : Nat) (f : List Byte) : List Byte := bytes_at f 0 (E_SZ .Ehdr bits)

/-- The constant `EI_NIDENT`. -/
def EI_NIDENT : Nat := 16

/-- The constant `EI_CLASS`. -/
def EI_CLASS : Nat := 4

/-- The constant `ELFCLASS32`. -/
def ELFCLASS32 : Byte := 1

/-- The constant `ELFCLASS64`. -/
def ELFCLASS64 : Byte := 2

/-- The string literal `ELFMAG`, "\177ELF", with its terminating NUL. -/
def ELFMAG : List Byte := [0x7f, 0x45, 0x4c, 0x46, 0]

/-- The call `strlen(s)` on a NUL-terminated string. -/
def strlen : List Byte → Nat
  | [] => 0
  | b :: bs => if b = 0 then 0 else strlen bs + 1

/-- Whether `strncmp(s1, s2, n) == 0`: the first `n` characters agree, the
comparison ending early at a NUL that both strings share. -/
def strncmp_eq : List Byte → List Byte → Nat → Bool
  | _, _, 0 => true
  | a :: s1, b :: s2, n + 1 =>
    if a ≠ b then false else if a = 0 then true else strncmp_eq s1 s2 n
  | _, _, _ + 1 => false

/-- `sizeof(sect_t)`: two `size_t` and a pointer. -/
def sizeof_sect_t : Nat := 24

/-! ## `sect_t`, `disp_sections` and `draw` -/

/-- The structure `sect_t` (main.c:31-36). `name` is a pointer into the string
table buffer `strtbl`, kept as its byte offset from the start of that buffer. -/
structure sect_t where
  size : Nat
  offset : Nat
  name : Nat
  deriving DecidableEq, Repr

/-- The loop of main.c:167-173, for `n` remaining iterations: read one section
header of `shent_sz` bytes into `shdr` and fill the next `sect_t`. -/
def read_sects (bits shent_sz : Nat) : Nat → FILE → Except Stop (List sect_t)
  | 0, _ => .ok []
  | n + 1, fp => do
    let (shdr, fp) ← safe_fread shent_sz fp
    let name ← E .sh_name bits shdr
    let size ← E .sh_size bits shdr
    let offset ← E .sh_offset bits shdr
    let rest ← read_sects bits shent_sz n fp
    .ok (⟨size, offset, name⟩ :: rest)

/-- What `disp_sections` holds when it reaches the call of `draw` (main.c:175). -/
structure Sections where
  bits : Nat
  n_sections : Nat
  strtbl : List Byte
  all_sects : List sect_t
  deriving DecidableEq, Repr

/-- Lines main.c:127-138: the word size chosen by the class byte of `ident`. -/
def ident_bits (ident : List Byte) : Except Stop Nat :=
  if ident[EI_CLASS]? = some ELFCLASS32 then .ok 32
  else if ident[EI_CLASS]? = some ELFCLASS64 then .ok 64
  else .error .word_size

/-- Lines main.c:140-173 of `disp_sections`, once `bits` is known: the header,
the string table, and the section array. -/
def read_sections (heap : Nat → Bool) (bits : Nat) (fp : FILE) : Except Stop Sections := do
  let fp := rewind fp
  let (hdr, fp) ← safe_fread (E_SZ .Ehdr bits) fp
  let n_sections ← E .e_shnum bits hdr
  let strtbl_idx ← E .e_shstrndx bits hdr
  let shent_sz ← E .e_shentsize bits hdr
  if !heap shent_sz then .error .alloc_shdr else
  let e_shoff ← E .e_shoff bits hdr
  let fp := fseek fp ((e_shoff + (strtbl_idx * shent_sz) % 2 ^ 64) % 2 ^ 64)
  let (shdr, fp) ← safe_fread shent_sz fp
  let strtbl_sz ← E .sh_size bits shdr
  if !heap strtbl_sz then .error .alloc_strtbl else
  let strtbl_off ← E .sh_offset bits shdr
  let fp := fseek fp strtbl_off
  let (strtbl, fp) ← safe_fread strtbl_sz fp
  if !heap (n_sections * sizeof_sect_t) then .error .alloc_sects else
  let fp := fseek fp e_shoff
  let all_sects ← read_sects bits shent_sz n_sections fp
  .ok ⟨bits, n_sections, strtbl, all_sects⟩

/-- Lines main.c:123-173 of `disp_sections`: everything before the call of
`draw`. -/
def scan_sections (heap : Nat → Bool) (fp : FILE) : Except Stop Sections := do
  let (ident, fp) ← safe_fread EI_NIDENT fp
  if !strncmp_eq ident ELFMAG (strlen ELFMAG) then .error .not_elf else
  let bits ← ident_bits ident
  read_sections heap bits fp

/-- One `printf` of `draw`. -/
inductive Line
  /-- The line "+ Offset          Bytes +". -/
  | title
  /-- The line "+-----------------------+". -/
  | rule
  /-- A line "| %-8p %11zuB | <-- %s" with its three arguments. -/
  | row (offset size : Nat) (name : List Byte)
  deriving DecidableEq, Repr

/-- The characters a `%s` prints for a pointer to the bytes `s`: those before the
first NUL. Without a NUL in the object the read runs off its end. -/
def c_string : List Byte → Except Stop (List Byte)
  | [] => .error .undefined_read
  | b :: bs => if b = 0 then .ok [] else do
    let cs ← c_string bs
    .ok (b :: cs)

/-- The loop of main.c:68-72 from index `i`, for `k` remaining iterations. -/
def draw_rows (strtbl : List Byte) (sections : List sect_t) : Nat → Nat → Except Stop (List Line)
  | _, 0 => .ok []
  | i, k + 1 =>
    match sections[i]? with
    | none => .error .undefined_read
    | some s => do
      let name ← c_string (strtbl.drop s.name)
      let rest ← draw_rows strtbl sections (i + 1) k
      .ok (.row s.offset s.size name :: rest)

/-- The function `draw` (main.c:62-74); `strtbl` is the memory the `name`
pointers point into. Rows are printed for `i = 1 .. n_sections - 1`. -/
def draw (strtbl : List Byte) (n_sections : Nat) (sections : List sect_t) :
    Except Stop (List Line) := do
  let rows ← draw_rows strtbl sections 1 (n_sections - 1)
  .ok (.title :: .rule :: rows ++ [.rule])

/-- The function `disp_sections` (main.c:113-182): what it prints on standard
output, or why the run stopped. -/
def disp_sections (heap : Nat → Bool) (fp : FILE) : Except Stop (List Line) := do
  let s ← scan_sections heap fp
  draw s.strtbl s.n_sections s.all_sects

/-- An allocator that grants every request. -/
def heap_any : Nat → Bool := fun _ => true

/-- A file system that accepts offsets up to `2^44 - 4096` (ext4 with 4 KiB
blocks); no position near `2^63` can be reached on it, so no read is refused. -/
def fs_ext4 : FileSys :=
  ⟨2 ^ 44 - 4096, fun _ _ => false, by decide, fun _ _ h => Bool.noConfusion h⟩

/-- A file system that accepts every offset a `long` can hold (tmpfs); a read
whose end would pass `2^63` is refused with an error. -/
def fs_tmpfs : FileSys :=
  ⟨2 ^ 63 - 1, fun p sz => decide (2 ^ 63 ≤ p + sz), by decide, fun p sz h => by
    have h2 : 2 ^ 63 ≤ p + sz := of_decide_eq_true h
    omega⟩

/-- The four magic bytes 0x7F 'E' 'L' 'F' (`ELFMAG` without its terminator). -/
def magic : List Byte := [0x7f, 0x45, 0x4c, 0x46]

/-! ## The round-trip scenario of the specification -/

/-- A section as the round-trip scenario lists it: name, size and offset. -/
structure Sec where
  name : List Byte
  size : Nat
  offset : Nat
  deriving DecidableEq, Repr

/-- Where an image keeps its section header table and its string table. -/
structure Layout where
  shoff : Nat
  shentsize : Nat
  shstrndx : Nat
  stroff : Nat
  strsz : Nat
  deriving DecidableEq, Repr

/-- Follows the specification's round-trip scenario: `f` is a 64-bit ELF image of
the sections `secs`. Its header declares `secs.length + 1` entries of
`L.shentsize` bytes at `L.shoff`; entry 0 stands for the null section and entry
`i + 1` carries the size and the offset of `secs[i]` and, in `sh_name`, a place of
the string table where the name of `secs[i]` is stored followed by a NUL; the
entry of index `L.shstrndx` locates that string table at the file bytes
`[L.stroff, L.stroff + L.strsz)`. -/
structure Encodes64 (f : List Byte) (L : Layout) (secs : List Sec) : Prop where
  has_magic : f.take 4 = magic
  has_class : f[4]? = some ELFCLASS64
  below : f.length < 2 ^ 63
  shnum : E .e_shnum 64 (ehdr 64 f) = .ok (secs.length + 1)
  shstrndx : E .e_shstrndx 64 (ehdr 64 f) = .ok L.shstrndx
  shentsize : E .e_shentsize 64 (ehdr 64 f) = .ok L.shentsize
  shoff : E .e_shoff 64 (ehdr 64 f) = .ok L.shoff
  whole : E_SZ .Shdr 64 ≤ L.shentsize
  table : L.shoff + (secs.length + 1) * L.shentsize ≤ f.length
  str_entry : L.shoff + L.shstrndx * L.shentsize + L.shentsize ≤ f.length
  str_offset :
    E .sh_offset 64 (bytes_at f (L.shoff + L.shstrndx * L.shentsize) L.shentsize) = .ok L.stroff
  str_size :
    E .sh_size 64 (bytes_at f (L.shoff + L.shstrndx * L.shentsize) L.shentsize) = .ok L.strsz
  str_table : L.stroff + L.strsz ≤ f.length
  nul_free : ∀ s, s ∈ secs → (0 : Byte) ∉ s.name
  entries : ∀ i s, secs[i]? = some s →
    E .sh_size 64 (bytes_at f (L.shoff + (i + 1) * L.shentsize) L.shentsize) = .ok s.size ∧
    E .sh_offset 64 (bytes_at f (L.shoff + (i + 1) * L.shentsize) L.shentsize) = .ok s.offset ∧
    ∃ p, E .sh_name 64 (bytes_at f (L.shoff + (i + 1) * L.shentsize) L.shentsize) = .ok p ∧
      bytes_at (bytes_at f L.stroff L.strsz) p (s.name.length + 1) = s.name ++ [0]

/-- The table `draw` prints for the sections `secs`: one row each, in order. -/
def table_of (secs : List Sec) : List Line :=
  .title :: .rule :: secs.map (fun s => Line.row s.offset s.size s.name) ++ [.rule]

/-! ## Header bytes the run does not look at -/

/-- The layout the macro `E` uses for an input: the 32-bit one when the class byte
is `ELFCLASS32`, the 64-bit one otherwise. -/
def hdr_bits (f : List Byte) : Nat := if f[EI_CLASS]? = some ELFCLASS32 then 32 else 64

/-- The bytes of member `m` of the file header in the layout `bits`: offset and
width. -/
def ehdr_member (bits : Nat) (m : Member) : Nat × Nat := if bits = 32 then Elf32 m else Elf64 m

/-- Whether byte `i` of the file is a header byte other than the magic, the class
byte and the members `e_shoff`, `e_shentsize`, `e_shnum`, `e_shstrndx`: one of
`e_ident[5..15]`, `e_type`, `e_machine`, `e_version`, `e_entry`, `e_phoff`,
`e_flags`, `e_ehsize`, `e_phentsize`, `e_phnum`. -/
def ignored_byte (bits i : Nat) : Bool :=
  decide (5 ≤ i) && decide (i < E_SZ .Ehdr bits) &&
    [Member.e_shoff, Member.e_shentsize, Member.e_shnum, Member.e_shstrndx].all
      (fun m => decide (i < (ehdr_member bits m).1 ∨
        (ehdr_member bits m).1 + (ehdr_member bits m).2 ≤ i))

/-! ## Sample inputs -/

/-- The `w` low-order bytes of `n`, least significant first. -/
def le_bytes : Nat → Nat → List Byte
  | 0, _ => []
  | w + 1, n => Fin.ofNat (n % 256) :: le_bytes w (n / 256)

/-- A run of `n` zero bytes. -/
def zeros (n : Nat) : List Byte := List.replicate n 0

/-- An `Elf32_Ehdr` with the given `e_shoff`, `e_shentsize`, `e_shnum` and
`e_shstrndx`, every other member after `e_ident` being zero. -/
def mk_ehdr32 (shoff shentsize shnum shstrndx : Nat) : List Byte :=
  magic ++ [1, 1, 1] ++ zeros 9 ++ zeros 16 ++ le_bytes 4 shoff ++ zeros 10
    ++ le_bytes 2 shentsize ++ le_bytes 2 shnum ++ le_bytes 2 shstrndx

/-- An `Elf64_Ehdr` with the given `e_shoff`, `e_shentsize`, `e_shnum` and
`e_shstrndx`, every other member after `e_ident` being zero. -/
def mk_ehdr64 (shoff shentsize shnum shstrndx : Nat) : List Byte :=
  magic ++ [2, 1, 1] ++ zeros 9 ++ zeros 24 ++ le_bytes 8 shoff ++ zeros 10
    ++ le_bytes 2 shentsize ++ le_bytes 2 shnum ++ le_bytes 2 shstrndx

/-- An `Elf32_Shdr` with the given `sh_name`, `sh_offset` and `sh_size`. -/
def mk_shdr32 (name offset size : Nat) : List Byte :=
  le_bytes 4 name ++ zeros 12 ++ le_bytes 4 offset ++ le_bytes 4 size ++ zeros 16

/-- An `Elf64_Shdr` with the given `sh_name`, `sh_offset` and `sh_size`. -/
def mk_shdr64 (name offset size : Nat) : List Byte :=
  le_bytes 4 name ++ zeros 20 ++ le_bytes 8 offset ++ le_bytes 8 size ++ zeros 24

/-- The bytes of ".text". -/
def dot_text : List Byte := [0x2e, 0x74, 0x65, 0x78, 0x74]

/-- The bytes of ".shstrtab". -/
def dot_shstrtab : List Byte := [0x2e, 0x73, 0x68, 0x73, 0x74, 0x72, 0x74, 0x61, 0x62]

/-- The bytes of ".data". -/
def dot_data : List Byte := [0x2e, 0x64, 0x61, 0x74, 0x61]

/-- A class-64 image with `e_shnum = 2` and `e_shstrndx = 2`: the table at 64 holds
the null entry, ".text" and, as a third entry outside the declared count, the
entry of the 17-byte string table at 256. -/
def img_strndx_high : List Byte :=
  mk_ehdr64 64 64 2 2 ++ mk_shdr64 0 0 0 ++ mk_shdr64 1 0x1000 0x200 ++ mk_shdr64 7 256 17
    ++ ([0] ++ dot_text ++ [0] ++ dot_shstrtab ++ [0])

/-- A class-32 file header and nothing else: `e_shnum = 0`, `e_shentsize = 40`,
`e_shoff = 52`. -/
def img_hdr32_only : List Byte := mk_ehdr32 52 40 0 0

/-- A class-32 image with `e_shnum = 0` whose entry 0 locates a one-byte string
table at 92. -/
def img32_empty : List Byte := mk_ehdr32 52 40 0 0 ++ mk_shdr32 0 92 1 ++ [0]

/-- A class-64 image whose entry 0 has `sh_name = 11`, the exact length of the
string table that entry 1 locates at 192. -/
def img_name_at_end0 : List Byte :=
  mk_ehdr64 64 64 2 1 ++ mk_shdr64 11 0 0 ++ mk_shdr64 1 192 11 ++ ([0] ++ dot_shstrtab ++ [0])

/-- A class-64 image whose entry 1 has `sh_name = 11`, the exact length of the
string table that the same entry locates at 192. -/
def img_name_at_end1 : List Byte :=
  mk_ehdr64 64 64 2 1 ++ mk_shdr64 0 0 0 ++ mk_shdr64 11 192 11 ++ ([0] ++ dot_shstrtab ++ [0])

/-- A class-64 image whose string table is the five bytes ".text" with no NUL
after them, at the very end of the file. -/
def img_no_nul : List Byte :=
  mk_ehdr64 64 64 2 1 ++ mk_shdr64 0 0 0 ++ mk_shdr64 0 192 5 ++ dot_text

/-- The file header and the three entries of the round-trip image: null, ".text"
(offset 0x1000, size 0x200) and ".data" (offset 0x1200, size 0x50), with
`e_shstrndx = 2`. -/
def img_roundtrip_head : List Byte :=
  mk_ehdr64 64 64 3 2 ++ mk_shdr64 0 0 0 ++ mk_shdr64 1 0x1000 0x200 ++ mk_shdr64 7 0x1200 0x50

/-- The string table of the round-trip image, padded to 0x50 bytes. -/
def img_roundtrip_strtab : List Byte := [0] ++ dot_text ++ [0] ++ dot_data ++ [0] ++ zeros 67

/-- The round-trip image: the table right after the file header, zero bytes up to
0x1200, and there the 0x50 bytes of the string table, which entry 2 locates. -/
def img_roundtrip : List Byte :=
  img_roundtrip_head ++ zeros (0x1200 - 256) ++ img_roundtrip_strtab

/-- The sections of the round-trip image. -/
def secs_roundtrip : List Sec := [⟨dot_text, 0x200, 0x1000⟩, ⟨dot_data, 0x50, 0x1200⟩]

/-- A three-byte file, "ABC". -/
def img_abc : List Byte := [0x41, 0x42, 0x43]

/-- Sixteen bytes that do not start with the magic. -/
def img_not_elf : List Byte :=
  [0x23, 0x21, 0x2f, 0x62, 0x69, 0x6e, 0x2f, 0x73, 0x68, 0x0a] ++ zeros 6

/-- A 64-byte class-64 header whose class byte was overwritten with 3. -/
def img_class3 : List Byte := (mk_ehdr64 64 64 0 0).set 4 3

/-- A complete class-32 image: header, then the table at 52 with the null entry and
the string-table entry, then the 11-byte string table at 132. -/
def img32 : List Byte :=
  mk_ehdr32 52 40 2 1 ++ mk_shdr32 0 0 0 ++ mk_shdr32 1 132 11
    ++ ([0] ++ dot_shstrtab ++ [0])

/-- A class-64 image of 273 bytes with three entries: null, ".text" declared at
offset 0x1000 with size 0x200, and the string-table entry (table at 256, 17
bytes). -/
def img_beyond : List Byte :=
  mk_ehdr64 64 64 3 2 ++ mk_shdr64 0 0 0 ++ mk_shdr64 1 0x1000 0x200 ++ mk_shdr64 7 256 17
    ++ ([0] ++ dot_text ++ [0] ++ dot_shstrtab ++ [0])

/-- A class-64 image whose `e_shentsize` is 72: each of the two entries is an
`Elf64_Shdr` followed by eight more bytes; the string table is at 208. -/
def img_entsize72 : List Byte :=
  mk_ehdr64 64 72 2 1 ++ (mk_shdr64 0 0 0 ++ zeros 8) ++ (mk_shdr64 1 208 11 ++ zeros 8)
    ++ ([0] ++ dot_shstrtab ++ [0])

/-- A class-64 image of 203 bytes whose string-table entry declares 11 bytes at
`sh_offset = 2^44`; the 11 bytes after the table, at 192, are a string table. -/
def img_far_strtab : List Byte :=
  mk_ehdr64 64 64 2 1 ++ mk_shdr64 0 0 0 ++ mk_shdr64 1 (2 ^ 44) 11
    ++ ([0] ++ dot_shstrtab ++ [0])

/-- A class-32 image that declares four entries at 52 and ends inside the fourth:
null, ".text", the string-table entry, then the 17-byte string table at 172. -/
def img32_short_table : List Byte :=
  mk_ehdr32 52 40 4 2 ++ mk_shdr32 0 0 0 ++ mk_shdr32 1 0x1000 0x200
    ++ mk_shdr32 7 172 17 ++ ([0] ++ dot_text ++ [0] ++ dot_shstrtab ++ [0])

/-- A class-64 image of 128 bytes whose string-table entry declares 16 bytes at
`sh_offset = 2^63 - 8`. -/
def img_strtab_at_top : List Byte :=
  mk_ehdr64 64 64 1 0 ++ mk_shdr64 0 (2 ^ 63 - 8) 16

/-- A class-64 image whose string-table entry declares `sh_size = 2^63` at
`sh_offset = 128`; the file ends at 128. -/
def img_huge_strtab : List Byte :=
  mk_ehdr64 64 64 1 0 ++ mk_shdr64 0 128 (2 ^ 63)

/-- An allocator that grants the requests `malloc` can grant at all: those of at
most `PTRDIFF_MAX = 2^63 - 1` bytes. -/
def heap_ptrdiff : Nat → Bool := fun n => decide (n < 2 ^ 63)

/-- A class-32 image whose string-table entry declares 17 bytes at 172 while the
file ends at 180. -/
def img32_short_strtab : List Byte :=
  mk_ehdr32 52 40 3 2 ++ mk_shdr32 0 0 0 ++ mk_shdr32 1 0x1000 0x200
    ++ mk_shdr32 7 172 17 ++ ([0] ++ dot_text ++ [0, 0x2e])

/-- A 64-byte class-64 header and nothing else: `e_shoff = 2^64 - 64`,
`e_shentsize = 64`, `e_shnum = 0`, `e_shstrndx = 1`, `e_entry = 64` and
`e_phoff = 0`. -/
def img_wrap_a : List Byte := (mk_ehdr64 (2 ^ 64 - 64) 64 0 1).set 24 64

/-- The same header with `e_phoff = 1`: byte 32 is the only difference. -/
def img_wrap_b : List Byte := img_wrap_a.set 32 1

/-- The class-32 image `img32` with other values in `e_ident[5..15]`, `e_type`,
`e_machine`, `e_entry`, `e_flags` and `e_phnum`. -/
def img32_other : List Byte :=
  (((((img32.set 5 2).set 7 3).set 16 2).set 18 40).set 24 0x54 |>.set 36 5).set 44 7

/-! ## Lemmas on the library calls -/

theorem short_read_near (fs : FileSys) (p sz : Nat) (h : p + sz < 2 ^ 62) :
    short_read fs p sz = .read_amount := by
  unfold short_read
  cases hio : fs.io_error p sz with
  | false => rfl
  | true => exact absurd (fs.io_error_far p sz hio) (by omega)

theorem safe_fread_eq {fs : FileSys} (sz : Nat) (f : List Byte) (p : Nat) :
    safe_fread sz ⟨f, p, fs, false⟩ =
      if sz ≤ f.length - p then .ok (bytes_at f p sz, ⟨f, p + sz, fs, false⟩)
      else .error (short_read fs p sz) := by
  unfold safe_fread fread bytes_at ferror short_read
  simp only [List.length_take, List.length_drop]
  by_cases h : sz ≤ f.length - p
  · simp [h, Nat.min_eq_left h]
  · have h1 : min sz (f.length - p) ≠ sz := by omega
    have h2 : min sz (f.length - p) < sz := by omega
    cases hio : fs.io_error p sz <;> simp [h, h1, h2, hio]

theorem fseek_eq {fs : FileSys} (f : List Byte) (p off : Nat) :
    fseek ⟨f, p, fs, false⟩ off = ⟨f, seek_pos fs f.length p off, fs, false⟩ := rfl

theorem can_seek_lt (fs : FileSys) (len off : Nat) (h : can_seek fs len off = true) :
    off < 2 ^ 63 := by
  unfold can_seek at h
  simp only [Bool.and_eq_true, Bool.or_eq_true, decide_eq_true_eq] at h
  exact h.1

theorem seek_pos_of_can (fs : FileSys) (len p off : Nat) (h : can_seek fs len off = true) :
    seek_pos fs len p off = off := by
  have h63 : off < 2 ^ 63 := can_seek_lt fs len off h
  have h2 : off % 2 ^ 64 = off := Nat.mod_eq_of_lt (by omega)
  unfold seek_pos
  rw [h2]
  exact if_pos h

theorem can_seek_mono (fs : FileSys) (len off a : Nat) (ha : a ≤ off)
    (h : can_seek fs len off = true) : can_seek fs len a = true := by
  unfold can_seek at h ⊢
  simp only [Bool.and_eq_true, Bool.or_eq_true, decide_eq_true_eq] at h ⊢
  omega

theorem can_seek_of_le (fs : FileSys) (len off : Nat) (h : off ≤ len) (hlen : len < 2 ^ 63) :
    can_seek fs len off = true := by
  unfold can_seek
  simp only [Bool.and_eq_true, Bool.or_eq_true, decide_eq_true_eq]
  exact ⟨by omega, Or.inr h⟩

theorem can_seek_of_lt32 (fs : FileSys) (len off : Nat) (h : off < 2 ^ 32) :
    can_seek fs len off = true := by
  unfold can_seek
  simp only [Bool.and_eq_true, Bool.or_eq_true, decide_eq_true_eq]
  have := fs.max_offset_ge
  exact ⟨by omega, Or.inl (by omega)⟩

theorem seek_pos_ge (fs : FileSys) (len p off b : Nat) (hp : b ≤ p) (ho : b ≤ off % 2 ^ 64) :
    b ≤ seek_pos fs len p off := by
  unfold seek_pos
  split <;> assumption

theorem E_SZ_ehdr_le (bits : Nat) : E_SZ .Ehdr bits ≤ 64 := by
  unfold E_SZ
  split <;> decide

theorem bind_ok {α β : Type} (x : Except Stop α) (g : α → Except Stop β) (b : β) :
    (x >>= g) = .ok b ↔ ∃ a, x = .ok a ∧ g a = .ok b := by
  cases x <;> simp [bind, Except.bind]

theorem ite_error_ok {β : Type} (c : Prop) [Decidable c] (e : Stop) (x : Except Stop β) (b : β) :
    (if c then .error e else x) = .ok b ↔ ¬ c ∧ x = .ok b := by
  split <;> simp [*]

theorem ite_ok_error {α : Type} (c : Prop) [Decidable c] (e : Stop) (a b : α) :
    (if c then Except.ok a else Except.error e) = .ok b ↔ c ∧ a = b := by
  split <;> simp [*]

theorem bytes_at_length (f : List Byte) (p sz : Nat) (h : sz ≤ f.length - p) :
    (bytes_at f p sz).length = sz := by
  simp [bytes_at, List.length_take, List.length_drop, Nat.min_eq_left h]

/-! ## Lemmas on the identification block -/

theorem strncmp_magic (ident : List Byte) (h : 4 ≤ ident.length) :
    strncmp_eq ident ELFMAG (strlen ELFMAG) = true ↔ ident.take 4 = magic := by
  match ident, h with
  | a :: b :: c :: d :: rest, _ =>
    have hl : strlen ELFMAG = 4 := by decide
    rw [hl]
    simp only [ELFMAG, strncmp_eq, List.take, magic]
    constructor
    · intro h
      split_ifs at h <;> simp_all
    · intro h
      simp at h
      obtain ⟨rfl, rfl, rfl, rfl⟩ := h
      decide

theorem ident_bits_eq (f : List Byte) :
    ident_bits (bytes_at f 0 EI_NIDENT) =
      if f[4]? = some 1 then .ok 32 else if f[4]? = some 2 then .ok 64 else .error .word_size := by
  have : (bytes_at f 0 EI_NIDENT)[EI_CLASS]? = f[4]? := by
    simp [bytes_at, EI_NIDENT, EI_CLASS, List.getElem?_take]
  unfold ident_bits
  rw [this]
  rfl

theorem read_sections_short {fs : FileSys} (heap : Nat → Bool) (bits : Nat) (f : List Byte)
    (p : Nat) (h : f.length < E_SZ .Ehdr bits) :
    read_sections heap bits ⟨f, p, fs, false⟩ = .error .read_amount := by
  unfold read_sections
  have : ¬ E_SZ .Ehdr bits ≤ f.length - 0 := by omega
  have hs : short_read fs 0 (E_SZ .Ehdr bits) = .read_amount :=
    short_read_near fs 0 _ (by have := E_SZ_ehdr_le bits; omega)
  simp only [rewind, safe_fread_eq, if_neg this, hs]
  rfl

/-- The run up to the choice of the layout, as a case split on the file. -/
theorem scan_sections_eq {fs : FileSys} (heap : Nat → Bool) (f : List Byte) :
    scan_sections heap (fopen fs f) =
      if f.length < 16 then .error .read_amount
      else if f.take 4 ≠ magic then .error .not_elf
      else ident_bits (bytes_at f 0 EI_NIDENT) >>= fun bits =>
        read_sections heap bits ⟨f, 16, fs, false⟩ := by
  unfold scan_sections fopen
  rw [safe_fread_eq]
  by_cases h : f.length < 16
  · have : ¬ EI_NIDENT ≤ f.length - 0 := by simp [EI_NIDENT]; omega
    rw [if_neg this, if_pos h, short_read_near fs 0 EI_NIDENT (by decide)]
    rfl
  · have h16 : EI_NIDENT ≤ f.length - 0 := by simp [EI_NIDENT]; omega
    rw [if_pos h16, if_neg h]
    have h4 : 4 ≤ (bytes_at f 0 EI_NIDENT).length := by
      simp [bytes_at, EI_NIDENT]; omega
    have ht : (bytes_at f 0 EI_NIDENT).take 4 = f.take 4 := by
      simp [bytes_at, EI_NIDENT, List.take_take]
    by_cases hm : f.take 4 = magic
    · have := (strncmp_magic _ h4).mpr (ht.trans hm)
      simp only [bind, Except.bind, this, hm]
      simp [EI_NIDENT]
    · have : strncmp_eq (bytes_at f 0 EI_NIDENT) ELFMAG (strlen ELFMAG) = false := by
        rw [Bool.eq_false_iff]
        intro hc
        exact hm (ht.symm.trans ((strncmp_magic _ h4).mp hc))
      simp only [bind, Except.bind, this, hm]
      simp [hm]

theorem disp_sections_of_scan_error (heap : Nat → Bool) (fp : FILE) (e : Stop)
    (h : scan_sections heap fp = .error e) : disp_sections heap fp = .error e := by
  unfold disp_sections
  rw [h]
  rfl

/-! ## Lemmas on the scan -/

theorem le_nat_lt (l : List Byte) : le_nat l < 256 ^ l.length := by
  induction l with
  | nil => simp [le_nat]
  | cons b bs ih =>
    have hb := b.isLt
    simp only [le_nat, List.length_cons, pow_succ]
    omega

theorem load_lt (p : List Byte) (off w v : Nat) (h : load p off w = .ok v) : v < 256 ^ w := by
  unfold load at h
  split at h
  · have hv := Except.ok.inj h
    subst hv
    have hl := le_nat_lt ((p.drop off).take w)
    have : ((p.drop off).take w).length = w := by
      simp only [List.length_take, List.length_drop]
      omega
    rwa [this] at hl
  · cases h

/-- A member read in the 32-bit layout is below `2^32`. -/
theorem E_lt_32 (m : Member) (p : List Byte) (v : Nat) (h : E m 32 p = .ok v) : v < 2 ^ 32 := by
  unfold E at h
  rw [if_pos rfl] at h
  have := load_lt _ _ _ _ h
  cases m <;> simp [Elf32] at this <;> omega

/-- A member read in either layout is below `2^64`. -/
theorem E_lt_64 (m : Member) (bits : Nat) (p : List Byte) (v : Nat) (h : E m bits p = .ok v) :
    v < 2 ^ 64 := by
  unfold E at h
  split at h
  · have := load_lt _ _ _ _ h
    cases m <;> simp [Elf32] at this <;> omega
  · have := load_lt _ _ _ _ h
    cases m <;> simp [Elf64] at this <;> omega

/-- The members `e_shentsize`, `e_shnum` and `e_shstrndx` are 16 bits wide. -/
theorem E_half_lt (m : Member) (bits : Nat) (p : List Byte) (v : Nat)
    (hm : m = .e_shentsize ∨ m = .e_shnum ∨ m = .e_shstrndx) (h : E m bits p = .ok v) :
    v < 2 ^ 16 := by
  unfold E at h
  split at h
  · have := load_lt _ _ _ _ h
    rcases hm with rfl | rfl | rfl <;> simp [Elf32] at this <;> omega
  · have := load_lt _ _ _ _ h
    rcases hm with rfl | rfl | rfl <;> simp [Elf64] at this <;> omega

/-- Every step of lines 140-173 that a successful run went through. -/
theorem read_sections_ok_iff {fs : FileSys} (heap : Nat → Bool) (bits : Nat) (f : List Byte)
    (p : Nat)
    (s : Sections) :
    read_sections heap bits ⟨f, p, fs, false⟩ = .ok s ↔
      ∃ n idx sz off ssz soff l,
        E_SZ .Ehdr bits ≤ f.length ∧
        E .e_shnum bits (ehdr bits f) = .ok n ∧
        E .e_shstrndx bits (ehdr bits f) = .ok idx ∧
        E .e_shentsize bits (ehdr bits f) = .ok sz ∧
        E .e_shoff bits (ehdr bits f) = .ok off ∧
        heap sz = true ∧ heap ssz = true ∧ heap (n * sizeof_sect_t) = true ∧
        sz ≤ f.length -
          seek_pos fs f.length (E_SZ .Ehdr bits) ((off + idx * sz % 2 ^ 64) % 2 ^ 64) ∧
        E .sh_size bits (bytes_at f
          (seek_pos fs f.length (E_SZ .Ehdr bits) ((off + idx * sz % 2 ^ 64) % 2 ^ 64)) sz)
            = .ok ssz ∧
        E .sh_offset bits (bytes_at f
          (seek_pos fs f.length (E_SZ .Ehdr bits) ((off + idx * sz % 2 ^ 64) % 2 ^ 64)) sz)
            = .ok soff ∧
        ssz ≤ f.length - seek_pos fs f.length (seek_pos fs f.length (E_SZ .Ehdr bits)
          ((off + idx * sz % 2 ^ 64) % 2 ^ 64) + sz) soff ∧
        read_sects bits sz n ⟨f, seek_pos fs f.length (seek_pos fs f.length
          (seek_pos fs f.length (E_SZ .Ehdr bits) ((off + idx * sz % 2 ^ 64) % 2 ^ 64) + sz)
          soff + ssz) off, fs, false⟩ = .ok l ∧
        s = ⟨bits, n, bytes_at f (seek_pos fs f.length (seek_pos fs f.length (E_SZ .Ehdr bits)
          ((off + idx * sz % 2 ^ 64) % 2 ^ 64) + sz) soff) ssz, l⟩ := by
  constructor
  · unfold read_sections
    simp only [rewind, safe_fread_eq, fseek_eq, bind_ok, ite_error_ok, ite_ok_error,
      Nat.sub_zero, Nat.zero_add, Prod.exists, Prod.mk.injEq, ehdr]
    rintro ⟨_, _, ⟨h1, rfl, rfl⟩, n, hn, idx, hidx, sz, hsz, hh1, off, hoff, _, _, hr1, ssz,
      hssz, hh2, soff, hsoff, _, _, hr2, hh3, l, hl, hs⟩
    simp only [safe_fread_eq, fseek_eq, ite_ok_error, Prod.mk.injEq] at hr1
    obtain ⟨hr1, rfl, rfl⟩ := hr1
    simp only [safe_fread_eq, fseek_eq, ite_ok_error, Prod.mk.injEq] at hr2
    obtain ⟨hr2, rfl, rfl⟩ := hr2
    simp only [fseek_eq] at hl
    simp at hh1 hh2 hh3
    exact ⟨n, idx, sz, off, ssz, soff, l, h1, hn, hidx, hsz, hoff, hh1, hh2, hh3, hr1, hssz,
      hsoff, hr2, hl, (Except.ok.inj hs).symm⟩
  · rintro ⟨n, idx, sz, off, ssz, soff, l, h1, hn, hidx, hsz, hoff, hh1, hh2, hh3, hr1, hssz,
      hsoff, hr2, hl, rfl⟩
    unfold ehdr at hn hidx hsz hoff
    unfold read_sections
    simp only [rewind, safe_fread_eq, fseek_eq, Nat.sub_zero, Nat.zero_add, if_pos h1, bind,
      Except.bind, hn, hidx, hsz, hoff, hh1, hh2, hh3, if_pos hr1, hssz, hsoff, if_pos hr2, hl,
      Bool.not_true, Bool.false_eq_true, if_false]

/-- A successful scan passed the magic test, took its width from the class byte
and then ran lines 140-173 with that width. -/
theorem scan_ok_inv {fs : FileSys} (heap : Nat → Bool) (f : List Byte) (s : Sections)
    (h : scan_sections heap (fopen fs f) = .ok s) :
    16 ≤ f.length ∧ f.take 4 = magic ∧
      ((f[4]? = some ELFCLASS32 ∧ s.bits = 32) ∨ (f[4]? = some ELFCLASS64 ∧ s.bits = 64)) ∧
      read_sections heap s.bits ⟨f, 16, fs, false⟩ = .ok s := by
  rw [scan_sections_eq] at h
  split at h
  · cases h
  · rename_i h16
    split at h
    · cases h
    · rename_i hm
      rw [bind_ok] at h
      obtain ⟨bits, hb, hr⟩ := h
      have hbits : s.bits = bits := by
        obtain ⟨n, idx, sz, off, ssz, soff, l, -, -, -, -, -, -, -, -, -, -, -, -, -, rfl⟩ :=
          (read_sections_ok_iff heap bits f 16 s).mp hr
        rfl
      rw [ident_bits_eq] at hb
      refine ⟨by omega, by simpa using hm, ?_, by rw [hbits]; exact hr⟩
      split at hb
      · rename_i h1
        exact Or.inl ⟨h1, by rw [hbits]; exact (Except.ok.inj hb).symm⟩
      · split at hb
        · rename_i h2
          exact Or.inr ⟨h2, by rw [hbits]; exact (Except.ok.inj hb).symm⟩
        · cases hb

theorem read_sects_succ_ok_iff {fs : FileSys} (bits sz n : Nat) (f : List Byte) (p : Nat)
    (l : List sect_t) :
    read_sects bits sz (n + 1) ⟨f, p, fs, false⟩ = .ok l ↔
      sz ≤ f.length - p ∧ ∃ d rest,
        E .sh_name bits (bytes_at f p sz) = .ok d.name ∧
        E .sh_size bits (bytes_at f p sz) = .ok d.size ∧
        E .sh_offset bits (bytes_at f p sz) = .ok d.offset ∧
        read_sects bits sz n ⟨f, p + sz, fs, false⟩ = .ok rest ∧ l = d :: rest := by
  rw [read_sects]
  simp only [safe_fread_eq, bind_ok, ite_ok_error, Prod.exists, Prod.mk.injEq]
  constructor
  · rintro ⟨_, _, ⟨h1, rfl, rfl⟩, name, hname, size, hsize, offset, hoffset, rest, hrest, hl⟩
    exact ⟨h1, ⟨size, offset, name⟩, rest, hname, hsize, hoffset, hrest,
      (Except.ok.inj hl).symm⟩
  · rintro ⟨h1, d, rest, hname, hsize, hoffset, hrest, rfl⟩
    exact ⟨_, _, ⟨h1, rfl, rfl⟩, d.name, hname, d.size, hsize, d.offset, hoffset, rest, hrest,
      rfl⟩

/-- What the loop of lines 167-173 leaves in `all_sects`: one descriptor per entry
read, entry `i` being the `sz` bytes at `p + i * sz`. -/
theorem read_sects_ok_iff {fs : FileSys} (bits sz n : Nat) (f : List Byte) (p : Nat)
    (l : List sect_t) :
    read_sects bits sz n ⟨f, p, fs, false⟩ = .ok l ↔
      l.length = n ∧ ∀ i, i < n → sz ≤ f.length - (p + i * sz) ∧ ∃ d, l[i]? = some d ∧
        E .sh_name bits (bytes_at f (p + i * sz) sz) = .ok d.name ∧
        E .sh_size bits (bytes_at f (p + i * sz) sz) = .ok d.size ∧
        E .sh_offset bits (bytes_at f (p + i * sz) sz) = .ok d.offset := by
  induction n generalizing p l with
  | zero =>
    rw [read_sects]
    constructor
    · intro h
      have := Except.ok.inj h
      subst this
      exact ⟨rfl, fun i hi => absurd hi (Nat.not_lt_zero i)⟩
    · rintro ⟨h, -⟩
      rw [List.length_eq_zero.mp h]
  | succ n ih =>
    rw [read_sects_succ_ok_iff]
    constructor
    · rintro ⟨h1, d, rest, hname, hsize, hoffset, hrest, rfl⟩
      obtain ⟨hlen, hall⟩ := (ih (p + sz) rest).mp hrest
      refine ⟨by simp [hlen], ?_⟩
      intro i hi
      cases i with
      | zero => simpa using ⟨h1, hname, hsize, hoffset⟩
      | succ i =>
        have := hall i (by omega)
        have e : p + sz + i * sz = p + (i + 1) * sz := by ring
        rw [e] at this
        simpa using this
    · rintro ⟨hlen, hall⟩
      match l, hlen with
      | d :: rest, hlen =>
        have h0 := hall 0 (by omega)
        simp only [Nat.zero_mul, Nat.add_zero, List.getElem?_cons_zero, Option.some.injEq,
          exists_eq_left'] at h0
        refine ⟨h0.1, d, rest, h0.2.1, h0.2.2.1, h0.2.2.2, ?_, rfl⟩
        rw [ih]
        refine ⟨by simpa using hlen, ?_⟩
        intro i hi
        have := hall (i + 1) (by omega)
        have e : p + sz + i * sz = p + (i + 1) * sz := by ring
        rw [e]
        simpa using this

/-- The three members of a section header lie inside a buffer that holds the whole
structure. -/
theorem E_shdr_ok (m : Member) (bits : Nat) (buf : List Byte)
    (hm : m = .sh_name ∨ m = .sh_offset ∨ m = .sh_size) (h : E_SZ .Shdr bits ≤ buf.length) :
    ∃ v, E m bits buf = .ok v := by
  unfold E load
  unfold E_SZ at h
  by_cases hb : bits = 32
  · simp only [hb, if_true] at h ⊢
    rcases hm with rfl | rfl | rfl <;>
      exact ⟨_, if_pos (by simp only [Elf32]; omega)⟩
  · simp only [hb, if_false] at h ⊢
    rcases hm with rfl | rfl | rfl <;>
      exact ⟨_, if_pos (by simp only [Elf64]; omega)⟩

/-- The loop completes when `n` whole entries lie in the file from `p` on. -/
theorem read_sects_exists {fs : FileSys} (bits sz n : Nat) (f : List Byte) (p : Nat)
    (hfit : E_SZ .Shdr bits ≤ sz) (hlen : p + n * sz ≤ f.length) :
    ∃ l, read_sects bits sz n ⟨f, p, fs, false⟩ = .ok l ∧ l.length = n := by
  induction n generalizing p with
  | zero => exact ⟨[], rfl, rfl⟩
  | succ n ih =>
    have e : p + (n + 1) * sz = p + sz + n * sz := by ring
    rw [e] at hlen
    obtain ⟨rest, hrest, hl⟩ := ih (p + sz) hlen
    have h1 : sz ≤ f.length - p := by
      have : 0 ≤ n * sz := Nat.zero_le _
      omega
    have hb : E_SZ .Shdr bits ≤ (bytes_at f p sz).length := by
      rw [bytes_at_length f p sz h1]; exact hfit
    obtain ⟨name, hname⟩ := E_shdr_ok .sh_name bits _ (Or.inl rfl) hb
    obtain ⟨size, hsize⟩ := E_shdr_ok .sh_size bits _ (Or.inr (Or.inr rfl)) hb
    obtain ⟨offset, hoffset⟩ := E_shdr_ok .sh_offset bits _ (Or.inr (Or.inl rfl)) hb
    refine ⟨⟨size, offset, name⟩ :: rest, ?_, by simp [hl]⟩
    rw [read_sects_succ_ok_iff]
    exact ⟨h1, ⟨size, offset, name⟩, rest, hname, hsize, hoffset, hrest, rfl⟩

/-- The scan completes when every seek succeeds and every read finds its bytes. -/
theorem scan_sections_ok_of {fs : FileSys} (heap : Nat → Bool) (f : List Byte)
    (bits n idx sz off ssz soff : Nat) (l : List sect_t)
    (hmag : f.take 4 = magic)
    (hcls : (f[4]? = some ELFCLASS32 ∧ bits = 32) ∨ (f[4]? = some ELFCLASS64 ∧ bits = 64))
    (hhdr : E_SZ .Ehdr bits ≤ f.length)
    (hn : E .e_shnum bits (ehdr bits f) = .ok n)
    (hidx : E .e_shstrndx bits (ehdr bits f) = .ok idx)
    (hsz : E .e_shentsize bits (ehdr bits f) = .ok sz)
    (hoff : E .e_shoff bits (ehdr bits f) = .ok off)
    (hh1 : heap sz = true) (hh2 : heap ssz = true) (hh3 : heap (n * sizeof_sect_t) = true)
    (h1 : can_seek fs f.length (off + idx * sz) = true) (hr1 : sz ≤ f.length - (off + idx * sz))
    (hssz : E .sh_size bits (bytes_at f (off + idx * sz) sz) = .ok ssz)
    (hsoff : E .sh_offset bits (bytes_at f (off + idx * sz) sz) = .ok soff)
    (h2 : can_seek fs f.length soff = true) (hr2 : ssz ≤ f.length - soff)
    (h3 : can_seek fs f.length off = true)
    (hl : read_sects bits sz n ⟨f, off, fs, false⟩ = .ok l) :
    scan_sections heap (fopen fs f) = .ok ⟨bits, n, bytes_at f soff ssz, l⟩ := by
  have h16 : 16 ≤ f.length := by
    have : 52 ≤ E_SZ .Ehdr bits := by unfold E_SZ; split <;> simp
    omega
  rw [scan_sections_eq, if_neg (by omega), if_neg (by simp [hmag]), ident_bits_eq]
  have hb : (if f[4]? = some 1 then Except.ok 32 else if f[4]? = some 2 then .ok 64
      else .error .word_size : Except Stop Nat) = .ok bits := by
    rcases hcls with ⟨hc, rfl⟩ | ⟨hc, rfl⟩
    · have hc' : f[4]? = some 1 := hc
      rw [if_pos hc']
    · have hc' : f[4]? = some 2 := hc
      have h1' : f[4]? ≠ some 1 := by rw [hc']; decide
      rw [if_neg h1', if_pos hc']
  rw [hb]
  show read_sections heap bits ⟨f, 16, fs, false⟩ = _
  rw [read_sections_ok_iff]
  have h63 : off + idx * sz < 2 ^ 63 := can_seek_lt fs _ _ h1
  have hm1 : idx * sz % 2 ^ 64 = idx * sz := Nat.mod_eq_of_lt (by omega)
  have hm2 : (off + idx * sz) % 2 ^ 64 = off + idx * sz := Nat.mod_eq_of_lt (by omega)
  refine ⟨n, idx, sz, off, ssz, soff, l, hhdr, hn, hidx, hsz, hoff, hh1, hh2, hh3, ?_, ?_, ?_, ?_,
    ?_, ?_⟩
  · rw [hm1, hm2, seek_pos_of_can _ _ _ _ h1]; exact hr1
  · rw [hm1, hm2, seek_pos_of_can _ _ _ _ h1]; exact hssz
  · rw [hm1, hm2, seek_pos_of_can _ _ _ _ h1]; exact hsoff
  · rw [seek_pos_of_can _ _ _ _ h2]; exact hr2
  · rw [seek_pos_of_can _ _ _ _ h3]; exact hl
  · rw [seek_pos_of_can _ _ _ _ h2]

/-! ## Lemmas on `draw` -/

theorem c_string_ok_iff (s nm : List Byte) :
    c_string s = .ok nm ↔ (0 : Byte) ∉ nm ∧ ∃ rest, s = nm ++ 0 :: rest := by
  induction s generalizing nm with
  | nil =>
    rw [c_string]
    constructor
    · intro h; cases h
    · rintro ⟨-, rest, h⟩
      cases nm <;> cases h
  | cons b bs ih =>
    rw [c_string]
    by_cases hb : b = 0
    · rw [if_pos hb]
      subst hb
      constructor
      · intro h
        have := Except.ok.inj h
        subst this
        exact ⟨by simp, bs, rfl⟩
      · rintro ⟨h0, rest, h⟩
        cases nm with
        | nil => rfl
        | cons c cs =>
          exfalso
          simp only [List.cons_append, List.cons.injEq] at h
          apply h0
          rw [← h.1]
          simp
    · rw [if_neg hb, bind_ok]
      constructor
      · rintro ⟨cs, hcs, h⟩
        have := Except.ok.inj h
        subst this
        obtain ⟨h0, rest, hr⟩ := (ih cs).mp hcs
        refine ⟨?_, rest, by rw [hr]; rfl⟩
        intro hmem
        rcases List.mem_cons.mp hmem with h | h
        · exact hb h.symm
        · exact h0 h
      · rintro ⟨h0, rest, h⟩
        cases nm with
        | nil =>
          simp only [List.nil_append, List.cons.injEq] at h
          exact absurd h.1 hb
        | cons c cs =>
          simp only [List.cons_append, List.cons.injEq] at h
          obtain ⟨rfl, h⟩ := h
          refine ⟨cs, (ih cs).mpr ⟨fun hm => h0 (List.mem_cons_of_mem _ hm), rest, h⟩, rfl⟩

theorem c_string_error (s : List Byte) (e : Stop) (h : c_string s = .error e) :
    e = .undefined_read := by
  induction s generalizing e with
  | nil =>
    rw [c_string] at h
    exact (Except.error.inj h).symm
  | cons b bs ih =>
    rw [c_string] at h
    split at h
    · cases h
    · cases hc : c_string bs with
      | error e' =>
        rw [hc] at h
        have : e' = e := Except.error.inj h
        rw [← this]
        exact ih e' hc
      | ok cs =>
        rw [hc] at h
        cases h

theorem draw_rows_succ_ok_iff (strtbl : List Byte) (secs : List sect_t) (i k : Nat)
    (rows : List Line) :
    draw_rows strtbl secs i (k + 1) = .ok rows ↔
      ∃ d nm rest, secs[i]? = some d ∧ c_string (strtbl.drop d.name) = .ok nm ∧
        draw_rows strtbl secs (i + 1) k = .ok rest ∧ rows = .row d.offset d.size nm :: rest := by
  rw [draw_rows]
  cases hd : secs[i]? with
  | none =>
    simp only []
    constructor
    · intro h; cases h
    · rintro ⟨d, nm, rest, h, -⟩; cases h
  | some d =>
    simp only [bind_ok]
    constructor
    · rintro ⟨nm, hnm, rest, hrest, h⟩
      exact ⟨d, nm, rest, rfl, hnm, hrest, (Except.ok.inj h).symm⟩
    · rintro ⟨d', nm, rest, hd', hnm, hrest, rfl⟩
      cases hd'
      exact ⟨nm, hnm, rest, hrest, rfl⟩

theorem draw_rows_ok_iff (strtbl : List Byte) (secs : List sect_t) (i k : Nat)
    (rows : List Line) :
    draw_rows strtbl secs i k = .ok rows ↔
      rows.length = k ∧ ∀ j, j < k → ∃ d nm, secs[i + j]? = some d ∧
        c_string (strtbl.drop d.name) = .ok nm ∧
        rows[j]? = some (.row d.offset d.size nm) := by
  induction k generalizing i rows with
  | zero =>
    rw [draw_rows]
    constructor
    · intro h
      have := Except.ok.inj h
      subst this
      exact ⟨rfl, fun j hj => absurd hj (Nat.not_lt_zero j)⟩
    · rintro ⟨h, -⟩
      rw [List.length_eq_zero.mp h]
  | succ k ih =>
    rw [draw_rows_succ_ok_iff]
    constructor
    · rintro ⟨d, nm, rest, hd, hnm, hrest, rfl⟩
      obtain ⟨hlen, hall⟩ := (ih (i + 1) rest).mp hrest
      refine ⟨by simp [hlen], ?_⟩
      intro j hj
      cases j with
      | zero => exact ⟨d, nm, hd, hnm, by simp⟩
      | succ j =>
        obtain ⟨d', nm', h1, h2, h3⟩ := hall j (by omega)
        have e : i + 1 + j = i + (j + 1) := by ring
        rw [e] at h1
        exact ⟨d', nm', h1, h2, by simpa using h3⟩
    · rintro ⟨hlen, hall⟩
      match rows, hlen with
      | r :: rest, hlen =>
        obtain ⟨d, nm, hd, hnm, hr⟩ := hall 0 (by omega)
        simp only [List.getElem?_cons_zero, Option.some.injEq] at hr
        subst hr
        refine ⟨d, nm, rest, hd, hnm, ?_, rfl⟩
        rw [ih]
        refine ⟨by simpa using hlen, ?_⟩
        intro j hj
        obtain ⟨d', nm', h1, h2, h3⟩ := hall (j + 1) (by omega)
        have e : i + 1 + j = i + (j + 1) := by ring
        rw [e]
        exact ⟨d', nm', h1, h2, by simpa using h3⟩

theorem draw_rows_error (strtbl : List Byte) (secs : List sect_t) (i k : Nat) (e : Stop)
    (h : draw_rows strtbl secs i k = .error e) : e = .undefined_read := by
  induction k generalizing i e with
  | zero => rw [draw_rows] at h; cases h
  | succ k ih =>
    rw [draw_rows] at h
    split at h
    · exact (Except.error.inj h).symm
    · rename_i d hd
      cases hc : c_string (strtbl.drop d.name) with
      | error e' =>
        rw [hc] at h
        have : e' = e := Except.error.inj h
        rw [← this]
        exact c_string_error _ _ hc
      | ok nm =>
        rw [hc] at h
        cases hr : draw_rows strtbl secs (i + 1) k with
        | error e' =>
          simp only [bind, Except.bind, hr] at h
          have : e' = e := Except.error.inj h
          rw [← this]
          exact ih _ _ hr
        | ok rest =>
          simp only [bind, Except.bind, hr] at h
          cases h

theorem draw_ok_iff (strtbl : List Byte) (n : Nat) (secs : List sect_t) (out : List Line) :
    draw strtbl n secs = .ok out ↔
      ∃ rows, draw_rows strtbl secs 1 (n - 1) = .ok rows ∧
        out = .title :: .rule :: rows ++ [.rule] := by
  unfold draw
  rw [bind_ok]
  constructor
  · rintro ⟨rows, h, h2⟩
    exact ⟨rows, h, (Except.ok.inj h2).symm⟩
  · rintro ⟨rows, h, rfl⟩
    exact ⟨rows, h, rfl⟩

theorem draw_error (strtbl : List Byte) (n : Nat) (secs : List sect_t) (e : Stop)
    (h : draw strtbl n secs = .error e) : e = .undefined_read := by
  unfold draw at h
  cases hr : draw_rows strtbl secs 1 (n - 1) with
  | error e' =>
    simp only [bind, Except.bind, hr] at h
    have : e' = e := Except.error.inj h
    rw [← this]
    exact draw_rows_error _ _ _ _ _ hr
  | ok rows =>
    simp only [bind, Except.bind, hr] at h
    cases h

/-! ## Lemmas shared by the claims -/

/-- After a successful scan whose seek to `e_shoff` succeeded, descriptor `i` holds
the three members of the entry at `e_shoff + i * e_shentsize`. -/
theorem scan_entries {fs : FileSys} (heap : Nat → Bool) (f : List Byte) (s : Sections)
    (off sz : Nat)
    (hscan : scan_sections heap (fopen fs f) = .ok s)
    (hoff : E .e_shoff s.bits (ehdr s.bits f) = .ok off)
    (hsz : E .e_shentsize s.bits (ehdr s.bits f) = .ok sz)
    (hlt : s.bits = 64 → can_seek fs f.length off = true) :
    E .e_shnum s.bits (ehdr s.bits f) = .ok s.n_sections ∧
      s.all_sects.length = s.n_sections ∧
      ∀ i, i < s.n_sections → ∃ d, s.all_sects[i]? = some d ∧
        E .sh_name s.bits (bytes_at f (off + i * sz) sz) = .ok d.name ∧
        E .sh_size s.bits (bytes_at f (off + i * sz) sz) = .ok d.size ∧
        E .sh_offset s.bits (bytes_at f (off + i * sz) sz) = .ok d.offset := by
  obtain ⟨-, -, hcls, hr⟩ := scan_ok_inv heap f s hscan
  obtain ⟨n, idx, sz', off', ssz, soff, l, -, hn, -, hsz', hoff', -, -, -, -, -, -, -, hl, hs⟩ :=
    (read_sections_ok_iff heap s.bits f 16 s).mp hr
  have e1 : off' = off := Except.ok.inj (hoff'.symm.trans hoff)
  have e2 : sz' = sz := Except.ok.inj (hsz'.symm.trans hsz)
  subst e1 e2
  have hall : s.all_sects = l := congrArg Sections.all_sects hs
  have hns : s.n_sections = n := congrArg Sections.n_sections hs
  have hlt' : can_seek fs f.length off' = true := by
    rcases hcls with ⟨-, hb⟩ | ⟨-, hb⟩
    · rw [hb] at hoff
      exact can_seek_of_lt32 fs _ _ (E_lt_32 _ _ _ hoff)
    · exact hlt hb
  rw [seek_pos_of_can _ _ _ _ hlt'] at hl
  obtain ⟨hlen, hent⟩ := (read_sects_ok_iff _ _ _ _ _ _).mp hl
  rw [hall, hns]
  refine ⟨hn, hlen, ?_⟩
  intro i hi
  obtain ⟨-, d, hd, hname, hsize, hoffset⟩ := hent i hi
  exact ⟨d, hd, hname, hsize, hoffset⟩

/-- A row whose name pointer is at or past the end of the table makes `draw` read
outside it. -/
theorem draw_undefined (strtbl : List Byte) (n : Nat) (secs : List sect_t) (i : Nat)
    (d : sect_t) (h1 : 1 ≤ i) (hi : i < n) (hd : secs[i]? = some d)
    (hc : ∀ nm, c_string (strtbl.drop d.name) ≠ .ok nm) :
    draw strtbl n secs = .error .undefined_read := by
  cases hr : draw strtbl n secs with
  | error e => rw [draw_error _ _ _ _ hr]
  | ok out =>
    exfalso
    obtain ⟨rows, hrows, -⟩ := (draw_ok_iff _ _ _ _).mp hr
    obtain ⟨-, hall⟩ := (draw_rows_ok_iff _ _ _ _ _).mp hrows
    obtain ⟨d', nm, hd', hnm, -⟩ := hall (i - 1) (by omega)
    have e : 1 + (i - 1) = i := by omega
    rw [e, hd] at hd'
    cases hd'
    exact hc nm hnm

theorem take_succ_append_cons (nm rest : List Byte) (b : Byte) :
    (nm ++ b :: rest).take (nm.length + 1) = nm ++ [b] := by
  induction nm with
  | nil => rfl
  | cons c cs ih => simpa using ih

theorem disp_sections_of_scan_ok (heap : Nat → Bool) (fp : FILE) (s : Sections)
    (h : scan_sections heap fp = .ok s) :
    disp_sections heap fp = draw s.strtbl s.n_sections s.all_sects := by
  unfold disp_sections
  rw [h]
  rfl

theorem img_roundtrip_length : img_roundtrip.length = 4688 := by
  simp only [img_roundtrip, List.length_append, zeros, List.length_replicate]
  rfl


/-- A run that prints went through a scan that completed. -/
theorem disp_ok_inv (heap : Nat → Bool) (fp : FILE) (out : List Line)
    (h : disp_sections heap fp = .ok out) :
    ∃ s, scan_sections heap fp = .ok s ∧ draw s.strtbl s.n_sections s.all_sects = .ok out := by
  cases hs : scan_sections heap fp with
  | error e =>
    rw [disp_sections_of_scan_error heap fp e hs] at h
    cases h
  | ok s =>
    rw [disp_sections_of_scan_ok heap fp s hs] at h
    exact ⟨s, rfl, h⟩

/-- A completed scan has read `e_shnum` entries, one descriptor each. -/
theorem scan_ok_count {fs : FileSys} (heap : Nat → Bool) (f : List Byte) (s : Sections)
    (h : scan_sections heap (fopen fs f) = .ok s) :
    E .e_shnum s.bits (ehdr s.bits f) = .ok s.n_sections ∧
      s.all_sects.length = s.n_sections := by
  obtain ⟨-, -, -, hr⟩ := scan_ok_inv heap f s h
  obtain ⟨n, idx, sz, off, ssz, soff, l, -, hn, -, -, -, -, -, -, -, -, -, -, hl, hs⟩ :=
    (read_sections_ok_iff heap s.bits f 16 s).mp hr
  have hall : s.all_sects = l := congrArg Sections.all_sects hs
  have hns : s.n_sections = n := congrArg Sections.n_sections hs
  obtain ⟨hlen, -⟩ := (read_sects_ok_iff _ _ _ _ _ _).mp hl
  rw [hall, hns]
  exact ⟨hn, hlen⟩

theorem draw_rows_exists (strtbl : List Byte) (secs : List sect_t) (i k : Nat)
    (h : ∀ j, j < k → ∃ d nm, secs[i + j]? = some d ∧ c_string (strtbl.drop d.name) = .ok nm) :
    ∃ rows, draw_rows strtbl secs i k = .ok rows := by
  induction k generalizing i with
  | zero => exact ⟨[], rfl⟩
  | succ k ih =>
    obtain ⟨d, nm, hd, hnm⟩ := h 0 (by omega)
    obtain ⟨rest, hrest⟩ := ih (i + 1) (fun j hj => by
      have := h (j + 1) (by omega)
      have e : i + 1 + j = i + (j + 1) := by ring
      rw [e]
      exact this)
    exact ⟨_, (draw_rows_succ_ok_iff _ _ _ _ _).mpr ⟨d, nm, rest, hd, hnm, hrest, rfl⟩⟩

/-- A field of a block read from the file is a block of the file. -/
theorem bytes_at_sub (f : List Byte) (p sz off w : Nat) (h : off + w ≤ sz) :
    ((bytes_at f p sz).drop off).take w = bytes_at f (p + off) w := by
  unfold bytes_at
  rw [List.drop_take, List.take_take, List.drop_drop, Nat.min_eq_left (by omega)]

theorem bytes_at_length_le (f : List Byte) (p sz : Nat) : (bytes_at f p sz).length ≤ sz := by
  simp only [bytes_at, List.length_take]
  omega

/-- A load that succeeds on a block read at `p` returns the little-endian value of
the file bytes at `p + off`. -/
theorem load_bytes_at (f : List Byte) (p sz off w v : Nat)
    (h : load (bytes_at f p sz) off w = .ok v) : v = le_nat (bytes_at f (p + off) w) := by
  unfold load at h
  split at h
  · rename_i hin
    have := bytes_at_length_le f p sz
    rw [bytes_at_sub f p sz off w (by omega)] at h
    exact (Except.ok.inj h).symm
  · cases h

/-- A load inside a block that was read whole succeeds. -/
theorem load_bytes_at_ok (f : List Byte) (p sz off w : Nat) (hfit : off + w ≤ sz)
    (hread : sz ≤ f.length - p) :
    load (bytes_at f p sz) off w = .ok (le_nat (bytes_at f (p + off) w)) := by
  unfold load
  rw [if_pos (by rw [bytes_at_length f p sz hread]; exact hfit), bytes_at_sub f p sz off w hfit]

/-- A member that could be loaded from a block of the file: the block starts
inside the file. -/
theorem bytes_at_lt_of_E (m : Member) (bits : Nat) (f : List Byte) (p sz v : Nat)
    (h : E m bits (bytes_at f p sz) = .ok v) : p < f.length := by
  have hpos : 0 < (bytes_at f p sz).length := by
    unfold E load at h
    split at h <;> split at h
    · rename_i hin
      have : 0 < (Elf32 m).2 := by cases m <;> decide
      omega
    · cases h
    · rename_i hin
      have : 0 < (Elf64 m).2 := by cases m <;> decide
      omega
    · cases h
  simp only [bytes_at, List.length_take, List.length_drop] at hpos
  omega

theorem can_seek_of_lt_le (fs : FileSys) (len off : Nat) (h : off < 2 ^ 63) (hle : off ≤ len) :
    can_seek fs len off = true := by
  unfold can_seek
  simp only [Bool.and_eq_true, Bool.or_eq_true, decide_eq_true_eq]
  exact ⟨h, Or.inr hle⟩

theorem ehdr_eq (bits : Nat) (f : List Byte) : ehdr bits f = bytes_at f 0 (E_SZ .Ehdr bits) := rfl

/-- Lines 140-173 written out with file positions instead of a stream. -/
theorem read_sections_flat {fs : FileSys} (heap : Nat → Bool) (bits : Nat) (f : List Byte)
    (p : Nat) :
    read_sections heap bits ⟨f, p, fs, false⟩ =
      if E_SZ .Ehdr bits ≤ f.length then
        E .e_shnum bits (ehdr bits f) >>= fun n =>
        E .e_shstrndx bits (ehdr bits f) >>= fun idx =>
        E .e_shentsize bits (ehdr bits f) >>= fun sz =>
        if heap sz = true then
          E .e_shoff bits (ehdr bits f) >>= fun off =>
          if sz ≤ f.length -
              seek_pos fs f.length (E_SZ .Ehdr bits) ((off + idx * sz % 2 ^ 64) % 2 ^ 64) then
            E .sh_size bits (bytes_at f
              (seek_pos fs f.length (E_SZ .Ehdr bits) ((off + idx * sz % 2 ^ 64) % 2 ^ 64)) sz)
              >>= fun ssz =>
            if heap ssz = true then
              E .sh_offset bits (bytes_at f
                (seek_pos fs f.length (E_SZ .Ehdr bits) ((off + idx * sz % 2 ^ 64) % 2 ^ 64)) sz)
                >>= fun soff =>
              if ssz ≤ f.length - seek_pos fs f.length (seek_pos fs f.length (E_SZ .Ehdr bits)
                  ((off + idx * sz % 2 ^ 64) % 2 ^ 64) + sz) soff then
                if heap (n * sizeof_sect_t) = true then
                  read_sects bits sz n ⟨f, seek_pos fs f.length (seek_pos fs f.length
                    (seek_pos fs f.length (E_SZ .Ehdr bits)
                      ((off + idx * sz % 2 ^ 64) % 2 ^ 64) + sz) soff + ssz) off, fs, false⟩
                    >>= fun l =>
                  .ok ⟨bits, n, bytes_at f (seek_pos fs f.length (seek_pos fs f.length
                    (E_SZ .Ehdr bits) ((off + idx * sz % 2 ^ 64) % 2 ^ 64) + sz) soff) ssz, l⟩
                else .error .alloc_sects
              else .error (short_read fs (seek_pos fs f.length (seek_pos fs f.length
                (E_SZ .Ehdr bits) ((off + idx * sz % 2 ^ 64) % 2 ^ 64) + sz) soff) ssz)
            else .error .alloc_strtbl
          else .error (short_read fs
            (seek_pos fs f.length (E_SZ .Ehdr bits) ((off + idx * sz % 2 ^ 64) % 2 ^ 64)) sz)
        else .error .alloc_shdr
      else .error .read_amount := by
  unfold read_sections
  have hs : short_read fs 0 (E_SZ .Ehdr bits) = .read_amount :=
    short_read_near fs 0 _ (by have := E_SZ_ehdr_le bits; omega)
  simp only [rewind, safe_fread_eq, fseek_eq, Nat.sub_zero, Nat.zero_add, ehdr, hs]
  by_cases h0 : E_SZ .Ehdr bits ≤ f.length
  · simp only [if_pos h0, bind, Except.bind]
    cases E .e_shnum bits (bytes_at f 0 (E_SZ .Ehdr bits)) with
    | error e => rfl
    | ok n =>
      cases E .e_shstrndx bits (bytes_at f 0 (E_SZ .Ehdr bits)) with
      | error e => rfl
      | ok idx =>
        cases E .e_shentsize bits (bytes_at f 0 (E_SZ .Ehdr bits)) with
        | error e => rfl
        | ok sz =>
          simp only []
          by_cases hh1 : heap sz = true
          · simp only [hh1, Bool.not_true, Bool.false_eq_true, if_false, if_true]
            cases E .e_shoff bits (bytes_at f 0 (E_SZ .Ehdr bits)) with
            | error e => rfl
            | ok off =>
              simp only [safe_fread_eq, fseek_eq]
              by_cases hr1 : sz ≤ f.length -
                  seek_pos fs f.length (E_SZ .Ehdr bits) ((off + idx * sz % 2 ^ 64) % 2 ^ 64)
              · simp only [if_pos hr1]
                cases E .sh_size bits (bytes_at f (seek_pos fs f.length (E_SZ .Ehdr bits)
                    ((off + idx * sz % 2 ^ 64) % 2 ^ 64)) sz) with
                | error e => rfl
                | ok ssz =>
                  simp only []
                  by_cases hh2 : heap ssz = true
                  · simp only [hh2, Bool.not_true, Bool.false_eq_true, if_false, if_true]
                    cases E .sh_offset bits (bytes_at f (seek_pos fs f.length (E_SZ .Ehdr bits)
                        ((off + idx * sz % 2 ^ 64) % 2 ^ 64)) sz) with
                    | error e => rfl
                    | ok soff =>
                      simp only [safe_fread_eq, fseek_eq]
                      by_cases hr2 : ssz ≤ f.length - seek_pos fs f.length
                          (seek_pos fs f.length (E_SZ .Ehdr bits)
                            ((off + idx * sz % 2 ^ 64) % 2 ^ 64) + sz) soff
                      · simp only [if_pos hr2]
                        by_cases hh3 : heap (n * sizeof_sect_t) = true
                        · simp only [hh3, Bool.not_true, Bool.false_eq_true, if_false, if_true,
                            fseek_eq]
                        · simp only [hh3, Bool.not_eq_true] at hh3 ⊢
                          simp [hh3]
                      · simp only [if_neg hr2]
                  · simp only [Bool.not_eq_true] at hh2
                    simp [hh2]
              · simp only [if_neg hr1]
          · simp only [Bool.not_eq_true] at hh1
            simp [hh1]
  · simp only [if_neg h0, bind, Except.bind]

/-- With the magic and a class byte of 1 or 2, the run continues with lines
140-173 in the layout of that class. -/
theorem scan_sections_of_class {fs : FileSys} (heap : Nat → Bool) (f : List Byte) (bits : Nat)
    (hlen : 16 ≤ f.length) (hmag : f.take 4 = magic)
    (hcls : (f[4]? = some ELFCLASS32 ∧ bits = 32) ∨ (f[4]? = some ELFCLASS64 ∧ bits = 64)) :
    scan_sections heap (fopen fs f) = read_sections heap bits ⟨f, 16, fs, false⟩ := by
  rw [scan_sections_eq, if_neg (by omega), if_neg (by simp [hmag]), ident_bits_eq]
  rcases hcls with ⟨hc, rfl⟩ | ⟨hc, rfl⟩
  · have hc' : f[4]? = some 1 := hc
    rw [if_pos hc']
    rfl
  · have hc' : f[4]? = some 2 := hc
    have h1' : f[4]? ≠ some 1 := by rw [hc']; decide
    rw [if_neg h1', if_pos hc']
    rfl

/-- When `sh_size` can be loaded from one buffer, the three members can be loaded
from every buffer at least as long. -/
theorem E_shdr_ok_of_sh_size (bits : Nat) (buf buf' : List Byte) (v : Nat)
    (h : E .sh_size bits buf = .ok v) (hlen : buf.length ≤ buf'.length) (m : Member)
    (hm : m = .sh_name ∨ m = .sh_offset ∨ m = .sh_size) :
    ∃ w, E m bits buf' = .ok w := by
  unfold E load at h ⊢
  by_cases hb : bits = 32
  · simp only [hb, if_true] at h ⊢
    split at h
    · rename_i hin
      simp only [Elf32] at hin
      rcases hm with rfl | rfl | rfl <;>
        exact ⟨_, if_pos (by simp only [Elf32]; omega)⟩
    · cases h
  · simp only [hb, if_false] at h ⊢
    split at h
    · rename_i hin
      simp only [Elf64] at hin
      rcases hm with rfl | rfl | rfl <;>
        exact ⟨_, if_pos (by simp only [Elf64]; omega)⟩
    · cases h

/-- The loop stops with the message of a short read when the file ends before the
last of `n` entries whose members can be loaded and no read of an entry that
starts inside the file is refused with an error. -/
theorem read_sects_short {fs : FileSys} (bits sz n : Nat) (f : List Byte) (p : Nat)
    (hf : ∀ buf : List Byte, buf.length = sz → ∀ m,
      m = .sh_name ∨ m = .sh_offset ∨ m = .sh_size → ∃ w, E m bits buf = .ok w)
    (hn : 0 < n) (hshort : f.length < p + n * sz) (hp : p ≤ f.length)
    (hio : ∀ q, q ≤ f.length → fs.io_error q sz = false) :
    read_sects bits sz n ⟨f, p, fs, false⟩ = .error .read_amount := by
  have hsr : ∀ q, q ≤ f.length → short_read fs q sz = .read_amount := fun q hq => by
    unfold short_read
    rw [hio q hq]
    rfl
  induction n generalizing p with
  | zero => omega
  | succ n ih =>
    rw [read_sects, safe_fread_eq, hsr p hp]
    by_cases hr : sz ≤ f.length - p
    · rw [if_pos hr]
      have hbl := bytes_at_length f p sz hr
      obtain ⟨a, ha⟩ := hf _ hbl .sh_name (Or.inl rfl)
      obtain ⟨b, hb⟩ := hf _ hbl .sh_size (Or.inr (Or.inr rfl))
      obtain ⟨c, hc⟩ := hf _ hbl .sh_offset (Or.inr (Or.inl rfl))
      have e : p + (n + 1) * sz = p + sz + n * sz := by ring
      rw [e] at hshort
      have hn' : 0 < n := by
        rcases Nat.eq_zero_or_pos n with h0 | h0
        · subst h0
          omega
        · exact h0
      have := ih (p + sz) hn' hshort (by omega)
      simp only [bind, Except.bind, ha, hb, hc, this]
    · rw [if_neg hr]
      rfl

theorem bytes_at_congr (f g : List Byte) (a w : Nat)
    (h : ∀ i, a ≤ i → i < a + w → f[i]? = g[i]?) : bytes_at f a w = bytes_at g a w := by
  apply List.ext_getElem?
  intro j
  simp only [bytes_at, List.getElem?_take, List.getElem?_drop]
  split
  · exact h (a + j) (by omega) (by omega)
  · rfl

theorem bytes_at_zero (f : List Byte) (p : Nat) : bytes_at f p 0 = [] := by
  simp [bytes_at]

theorem ignored_byte_low (bits i : Nat) (h : i < 5) : ignored_byte bits i = false := by
  have : ¬ 5 ≤ i := by omega
  simp [ignored_byte, this]

theorem ignored_byte_high (bits i : Nat) (h : E_SZ .Ehdr bits ≤ i) :
    ignored_byte bits i = false := by
  have : ¬ i < E_SZ .Ehdr bits := by omega
  simp [ignored_byte, this]

theorem ignored_byte_member (bits i : Nat) (m : Member)
    (hm : m = .e_shoff ∨ m = .e_shentsize ∨ m = .e_shnum ∨ m = .e_shstrndx)
    (h1 : (ehdr_member bits m).1 ≤ i)
    (h2 : i < (ehdr_member bits m).1 + (ehdr_member bits m).2) :
    ignored_byte bits i = false := by
  unfold ignored_byte
  rw [Bool.and_eq_false_iff]
  right
  rw [List.all_eq_false]
  refine ⟨m, ?_, ?_⟩
  · rcases hm with rfl | rfl | rfl | rfl <;> simp
  · simp only [decide_eq_true_eq]
    omega

theorem E_ehdr_member (m : Member) (bits : Nat) (p : List Byte) :
    E m bits p = load p (ehdr_member bits m).1 (ehdr_member bits m).2 := by
  unfold E ehdr_member
  split <;> rfl

theorem ehdr_member_fits (bits : Nat) (m : Member)
    (hm : m = .e_shoff ∨ m = .e_shentsize ∨ m = .e_shnum ∨ m = .e_shstrndx) :
    (ehdr_member bits m).1 + (ehdr_member bits m).2 ≤ E_SZ .Ehdr bits := by
  unfold ehdr_member E_SZ
  split <;> rcases hm with rfl | rfl | rfl | rfl <;> simp [Elf32, Elf64]

/-- Two files of one length that agree outside the ignored header bytes give the
same four header members. -/
theorem E_ehdr_congr (f g : List Byte) (bits : Nat) (m : Member)
    (hm : m = .e_shoff ∨ m = .e_shentsize ∨ m = .e_shnum ∨ m = .e_shstrndx)
    (hsame : f.length = g.length)
    (hagree : ∀ i, ignored_byte bits i = false → f[i]? = g[i]?) :
    E m bits (ehdr bits f) = E m bits (ehdr bits g) := by
  rw [E_ehdr_member, E_ehdr_member]
  have hfit := ehdr_member_fits bits m hm
  have hlen : (ehdr bits f).length = (ehdr bits g).length := by
    simp only [ehdr, bytes_at, List.length_take, List.length_drop, hsame]
  unfold load
  rw [hlen]
  split
  · simp only [ehdr]
    rw [bytes_at_sub f 0 _ _ _ hfit, bytes_at_sub g 0 _ _ _ hfit]
    rw [bytes_at_congr f g _ _ (fun i h1 h2 =>
      hagree i (ignored_byte_member bits i m hm (by omega) (by omega)))]
  · rfl

/-- Two files of one length that agree from `p` on give the same loop. -/
theorem read_sects_congr {fs : FileSys} (bits sz n : Nat) (f g : List Byte) (p : Nat)
    (hsame : f.length = g.length) (hagree : ∀ i, p ≤ i → f[i]? = g[i]?) :
    read_sects bits sz n ⟨f, p, fs, false⟩ = read_sects bits sz n ⟨g, p, fs, false⟩ := by
  induction n generalizing p with
  | zero => rfl
  | succ n ih =>
    rw [read_sects, read_sects, safe_fread_eq, safe_fread_eq, hsame]
    rw [bytes_at_congr f g p sz (fun i h1 _ => hagree i h1)]
    split
    · simp only [bind, Except.bind]
      rw [ih (p + sz) (fun i hi => hagree i (by omega))]
    · rfl

/-- Lines 140-173 give the same result on two files of one length that agree
outside the ignored header bytes, when the three seek targets (the string-table
entry, the string table and the section header table) are at or after the end of
the header: a seek that fails then leaves the stream after the header too. -/
theorem read_sections_congr {fs : FileSys} (heap : Nat → Bool) (bits : Nat) (f g : List Byte)
    (p q : Nat) (hsame : f.length = g.length)
    (hagree : ∀ i, ignored_byte bits i = false → f[i]? = g[i]?)
    (hclear : ∀ off idx sz, E .e_shoff bits (ehdr bits f) = .ok off →
      E .e_shstrndx bits (ehdr bits f) = .ok idx →
      E .e_shentsize bits (ehdr bits f) = .ok sz →
      E_SZ .Ehdr bits ≤ off ∧ E_SZ .Ehdr bits ≤ (off + idx * sz % 2 ^ 64) % 2 ^ 64 ∧
      ∀ soff, E .sh_offset bits (bytes_at f (seek_pos fs f.length (E_SZ .Ehdr bits)
          ((off + idx * sz % 2 ^ 64) % 2 ^ 64)) sz) = .ok soff → E_SZ .Ehdr bits ≤ soff) :
    read_sections heap bits ⟨f, p, fs, false⟩ = read_sections heap bits ⟨g, q, fs, false⟩ := by
  have hhigh : ∀ a w, E_SZ .Ehdr bits ≤ a → bytes_at g a w = bytes_at f a w := fun a w ha =>
    (bytes_at_congr f g a w (fun i h1 _ => hagree i (ignored_byte_high bits i (by omega)))).symm
  rw [read_sections_flat, read_sections_flat, ← hsame,
    ← E_ehdr_congr f g bits .e_shnum (Or.inr (Or.inr (Or.inl rfl))) hsame hagree,
    ← E_ehdr_congr f g bits .e_shstrndx (Or.inr (Or.inr (Or.inr rfl))) hsame hagree,
    ← E_ehdr_congr f g bits .e_shentsize (Or.inr (Or.inl rfl)) hsame hagree,
    ← E_ehdr_congr f g bits .e_shoff (Or.inl rfl) hsame hagree]
  by_cases h0 : E_SZ .Ehdr bits ≤ f.length
  · simp only [if_pos h0, bind, Except.bind]
    cases hn : E .e_shnum bits (ehdr bits f) with
    | error e => rfl
    | ok n =>
      cases hidx : E .e_shstrndx bits (ehdr bits f) with
      | error e => rfl
      | ok idx =>
        cases hsz : E .e_shentsize bits (ehdr bits f) with
        | error e => rfl
        | ok sz =>
          simp only []
          by_cases hh1 : heap sz = true
          · simp only [if_pos hh1]
            cases hoff : E .e_shoff bits (ehdr bits f) with
            | error e => rfl
            | ok off =>
              simp only []
              obtain ⟨hc1, hc2, hc3⟩ := hclear off idx sz hoff hidx hsz
              have hP : E_SZ .Ehdr bits ≤ seek_pos fs f.length (E_SZ .Ehdr bits)
                  ((off + idx * sz % 2 ^ 64) % 2 ^ 64) :=
                seek_pos_ge fs _ _ _ _ le_rfl (by rw [Nat.mod_mod]; exact hc2)
              generalize seek_pos fs f.length (E_SZ .Ehdr bits)
                ((off + idx * sz % 2 ^ 64) % 2 ^ 64) = P at hP hc3 ⊢
              rw [hhigh P sz hP]
              by_cases hr1 : sz ≤ f.length - P
              · simp only [if_pos hr1]
                cases hssz : E .sh_size bits (bytes_at f P sz) with
                | error e => rfl
                | ok ssz =>
                  simp only []
                  by_cases hh2 : heap ssz = true
                  · simp only [if_pos hh2]
                    cases hsoff : E .sh_offset bits (bytes_at f P sz) with
                    | error e => rfl
                    | ok soff =>
                      simp only []
                      have hP2 : E_SZ .Ehdr bits ≤ seek_pos fs f.length (P + sz) soff :=
                        seek_pos_ge fs _ _ _ _ (by omega)
                          (by rw [Nat.mod_eq_of_lt (E_lt_64 _ _ _ _ hsoff)]; exact hc3 soff hsoff)
                      have hP3 : E_SZ .Ehdr bits ≤
                          seek_pos fs f.length (seek_pos fs f.length (P + sz) soff + ssz) off :=
                        seek_pos_ge fs _ _ _ _ (by omega)
                          (by rw [Nat.mod_eq_of_lt (E_lt_64 _ _ _ _ hoff)]; exact hc1)
                      rw [hhigh _ ssz hP2,
                        read_sects_congr bits sz n f g _ hsame
                          (fun i hi => hagree i (ignored_byte_high bits i (by omega)))]
                  · simp only [if_neg hh2]
              · simp only [if_neg hr1]
          · simp only [if_neg hh1]
  · simp only [if_neg h0]

/-- The bytes in which `img32_other` differs from `img32` are ignored ones. -/
theorem img32_other_differs (i : Nat) (h : img32[i]? ≠ img32_other[i]?) :
    ignored_byte 32 i = true := by
  by_cases hi : i < 143
  · have key : ∀ j, j < 143 → img32[j]? = img32_other[j]? ∨ ignored_byte 32 j = true := by
      decide
    rcases key i hi with h1 | h1
    · exact absurd h1 h
    · exact h1
  · exfalso
    apply h
    rw [List.getElem?_eq_none (by rw [show img32.length = 143 from by rfl]; omega),
      List.getElem?_eq_none (by rw [show img32_other.length = 143 from by rfl]; omega)]

/-! ## C1: the descriptor array follows the table -/

/-- C2 (as the code has it): an input of at least 16 bytes whose first four bytes
are not the ELF magic stops with "This is not an ELF file", before any descriptor
exists and before anything is printed; an input shorter than 16 bytes stops in
`safe_fread` with "Could not read requested amount from input file", whatever its
first bytes are. -/
theorem not_elf_of_bad_magic (heap : Nat → Bool) (fs : FileSys) (f : List Byte) :
    (16 ≤ f.length → f.take 4 ≠ magic →
      scan_sections heap (fopen fs f) = .error .not_elf ∧
      disp_sections heap (fopen fs f) = .error .not_elf) ∧
    (f.length < 16 →
      scan_sections heap (fopen fs f) = .error .read_amount ∧
      disp_sections heap (fopen fs f) = .error .read_amount) := by
  constructor
  · intro hlen hmag
    have h : scan_sections heap (fopen fs f) = .error .not_elf := by
      rw [scan_sections_eq, if_neg (by omega), if_pos hmag]
    exact ⟨h, disp_sections_of_scan_error heap _ _ h⟩
  · intro hlen
    have h : scan_sections heap (fopen fs f) = .error .read_amount := by
      rw [scan_sections_eq, if_pos hlen]
    exact ⟨h, disp_sections_of_scan_error heap _ _ h⟩

/-- C2, witness: a 16-byte script header is rejected as not an ELF file, and the
first 15 bytes of the class-32 image, which start with the magic, stop with the
read message. -/
theorem not_elf_of_bad_magic_witness :
    (16 ≤ img_not_elf.length ∧ img_not_elf.take 4 ≠ magic ∧
      scan_sections heap_any (fopen fs_ext4 img_not_elf) = .error .not_elf ∧
      disp_sections heap_any (fopen fs_ext4 img_not_elf) = .error .not_elf) ∧
    ((img32.take 15).length < 16 ∧ (img32.take 15).take 4 = magic ∧
      scan_sections heap_any (fopen fs_ext4 (img32.take 15)) = .error .read_amount ∧
      disp_sections heap_any (fopen fs_ext4 (img32.take 15)) = .error .read_amount) :=
  ⟨⟨by decide, by decide,
      (not_elf_of_bad_magic heap_any fs_ext4 img_not_elf).1 (by decide) (by decide)⟩,
    ⟨by decide, by decide,
      (not_elf_of_bad_magic heap_any fs_ext4 (img32.take 15)).2 (by decide)⟩⟩

/-- C2, counterexample to the claim as stated ("of any length"): the three-byte
file "ABC" does not start with the magic, yet the run stops in `safe_fread` with
"Could not read requested amount from input file", not with the not-an-ELF
message. -/
theorem short_bad_magic_read_amount :
    img_abc.take 4 ≠ magic ∧
      disp_sections heap_any (fopen fs_ext4 img_abc) = .error .read_amount ∧
      disp_sections heap_any (fopen fs_ext4 img_abc) ≠ .error .not_elf :=
  ⟨by decide, rfl, by
    rw [show disp_sections heap_any (fopen fs_ext4 img_abc) = .error .read_amount from rfl]
    simp⟩

/-! ## C3: the class byte -/

/-- C3: with a full identification block and the right magic, a class byte other
than `ELFCLASS32` and `ELFCLASS64` stops the run with "Unknown binary word-size";
class byte 1 continues with the 32-bit layout and class byte 2 with the 64-bit
layout. -/
theorem class_byte_selects_layout (heap : Nat → Bool) (fs : FileSys) (f : List Byte)
    (hlen : 16 ≤ f.length) (hmag : f.take 4 = magic) :
    (f[4]? ≠ some ELFCLASS32 → f[4]? ≠ some ELFCLASS64 →
        scan_sections heap (fopen fs f) = .error .word_size ∧
        disp_sections heap (fopen fs f) = .error .word_size) ∧
      (f[4]? = some ELFCLASS32 →
        scan_sections heap (fopen fs f) = read_sections heap 32 ⟨f, 16, fs, false⟩) ∧
      (f[4]? = some ELFCLASS64 →
        scan_sections heap (fopen fs f) = read_sections heap 64 ⟨f, 16, fs, false⟩) := by
  have h : scan_sections heap (fopen fs f) =
      ident_bits (bytes_at f 0 EI_NIDENT) >>= fun bits =>
        read_sections heap bits ⟨f, 16, fs, false⟩ := by
    rw [scan_sections_eq, if_neg (by omega), if_neg (by simp [hmag])]
  rw [ident_bits_eq] at h
  refine ⟨?_, ?_, ?_⟩
  · intro h1 h2
    have h1' : f[4]? ≠ some 1 := h1
    have h2' : f[4]? ≠ some 2 := h2
    rw [if_neg h1', if_neg h2'] at h
    exact ⟨h, disp_sections_of_scan_error heap _ _ h⟩
  · intro h1
    have h1' : f[4]? = some 1 := h1
    rw [if_pos h1'] at h
    exact h
  · intro h2
    have h2' : f[4]? = some 2 := h2
    have h1' : f[4]? ≠ some 1 := by rw [h2']; decide
    rw [if_neg h1', if_pos h2'] at h
    exact h

/-- C3, witness: a header with class byte 3 stops with "Unknown binary
word-size". -/
theorem class_byte_selects_layout_witness :
    16 ≤ img_class3.length ∧ img_class3.take 4 = magic ∧
      img_class3[4]? ≠ some ELFCLASS32 ∧ img_class3[4]? ≠ some ELFCLASS64 ∧
      disp_sections heap_any (fopen fs_ext4 img_class3) = .error .word_size :=
  ⟨by decide, by decide, by decide, by decide,
    ((class_byte_selects_layout heap_any fs_ext4 img_class3 (by decide) (by decide)).1
      (by decide) (by decide)).2⟩

/-! ## C4: inputs cut inside the file header -/

/-- C4: cutting an ELF input (right magic, class byte 1 or 2) to its first `k`
bytes, with `k` below the size of the file header of its class, stops the run with
"Could not read requested amount from input file"; nothing is returned. -/
theorem truncated_header_read_amount (heap : Nat → Bool) (fs : FileSys) (f : List Byte) (k : Nat)
    (hmag : f.take 4 = magic)
    (hk : (f[4]? = some ELFCLASS32 ∧ k < 52) ∨ (f[4]? = some ELFCLASS64 ∧ k < 64)) :
    scan_sections heap (fopen fs (f.take k)) = .error .read_amount ∧
      disp_sections heap (fopen fs (f.take k)) = .error .read_amount := by
  have h : scan_sections heap (fopen fs (f.take k)) = .error .read_amount := by
    rw [scan_sections_eq]
    by_cases h16 : (f.take k).length < 16
    · rw [if_pos h16]
    · rw [if_neg h16]
      have hlen : (f.take k).length ≤ k := by simp [List.length_take]
      have hk16 : 16 ≤ k := by omega
      have ht : (f.take k).take 4 = f.take 4 := by
        rw [List.take_take, Nat.min_eq_left (by omega)]
      have hc : (f.take k)[4]? = f[4]? := by
        exact List.getElem?_take_of_lt (by omega)
      rw [if_neg (by simp [ht, hmag]), ident_bits_eq, hc]
      rcases hk with ⟨h1, hk⟩ | ⟨h2, hk⟩
      · have h1' : f[4]? = some 1 := h1
        rw [if_pos h1']
        exact read_sections_short heap 32 _ 16 (show _ < 52 by omega)
      · have h2' : f[4]? = some 2 := h2
        have h1' : f[4]? ≠ some 1 := by rw [h2']; decide
        rw [if_neg h1', if_pos h2']
        exact read_sections_short heap 64 _ 16 (show _ < 64 by omega)
  exact ⟨h, disp_sections_of_scan_error heap _ _ h⟩

/-- C4, witness: the first 51 bytes of a complete class-32 image. -/
theorem truncated_header_read_amount_witness :
    img32.take 4 = magic ∧ img32[4]? = some ELFCLASS32 ∧
      disp_sections heap_any (fopen fs_ext4 img32) =
        .ok [.title, .rule, .row 132 11 dot_shstrtab, .rule] ∧
      disp_sections heap_any (fopen fs_ext4 (img32.take 51)) = .error .read_amount :=
  ⟨by rfl, by rfl, by rfl,
    (truncated_header_read_amount heap_any fs_ext4 img32 51 (by rfl)
      (Or.inl ⟨by rfl, by decide⟩)).2⟩

/-! ## C5: a string-table index at or beyond the section count -/

/-- C5 (as the code has it): `disp_sections` never compares `e_shstrndx` with
`e_shnum`. With `e_shstrndx ≥ e_shnum` the string table is still located through
the entry at `e_shoff + e_shstrndx * e_shentsize`: when that entry and the range
it declares lie inside the file (the file being shorter than `2^63` bytes,
`e_shentsize` covering the section-header structure, the allocations granted), the
scan completes with `e_shnum` descriptors and that string table. -/
theorem strndx_beyond_shnum_not_rejected (heap : Nat → Bool) (fs : FileSys) (f : List Byte)
    (bits n idx sz off ssz soff : Nat)
    (hmag : f.take 4 = magic)
    (hcls : (f[4]? = some ELFCLASS32 ∧ bits = 32) ∨ (f[4]? = some ELFCLASS64 ∧ bits = 64))
    (hhdr : E_SZ .Ehdr bits ≤ f.length)
    (hn : E .e_shnum bits (ehdr bits f) = .ok n)
    (hidx : E .e_shstrndx bits (ehdr bits f) = .ok idx)
    (hsz : E .e_shentsize bits (ehdr bits f) = .ok sz)
    (hoff : E .e_shoff bits (ehdr bits f) = .ok off)
    (hge : n ≤ idx)
    (hfit : E_SZ .Shdr bits ≤ sz)
    (hent : off + idx * sz + sz ≤ f.length)
    (hssz : E .sh_size bits (bytes_at f (off + idx * sz) sz) = .ok ssz)
    (hsoff : E .sh_offset bits (bytes_at f (off + idx * sz) sz) = .ok soff)
    (hstr : soff + ssz ≤ f.length)
    (hfile : f.length < 2 ^ 63)
    (hh1 : heap sz = true) (hh2 : heap ssz = true) (hh3 : heap (n * sizeof_sect_t) = true) :
    ∃ l, scan_sections heap (fopen fs f) = .ok ⟨bits, n, bytes_at f soff ssz, l⟩ ∧
      l.length = n := by
  have hle : n * sz ≤ idx * sz := Nat.mul_le_mul_right sz hge
  obtain ⟨l, hl, hlen⟩ := read_sects_exists bits sz n f off hfit (by omega)
  exact ⟨l, scan_sections_ok_of heap f bits n idx sz off ssz soff l hmag hcls hhdr hn hidx hsz
    hoff hh1 hh2 hh3 (can_seek_of_le fs _ _ (by omega) hfile) (by omega) hssz hsoff
    (can_seek_of_le fs _ _ (by omega) hfile) (by omega) (can_seek_of_le fs _ _ (by omega) hfile)
    hl, hlen⟩

/-- C5, witness: `e_shnum = 2` and `e_shstrndx = 2`; the scan completes with two
descriptors and the string table of entry 2. -/
theorem strndx_beyond_shnum_not_rejected_witness :
    E .e_shnum 64 (ehdr 64 img_strndx_high) = .ok 2 ∧
      E .e_shstrndx 64 (ehdr 64 img_strndx_high) = .ok 2 ∧
      scan_sections heap_any (fopen fs_ext4 img_strndx_high) =
        .ok ⟨64, 2, [0] ++ dot_text ++ [0] ++ dot_shstrtab ++ [0],
          [⟨0, 0, 0⟩, ⟨0x200, 0x1000, 1⟩]⟩ ∧
      ∃ l, scan_sections heap_any (fopen fs_ext4 img_strndx_high) =
          .ok ⟨64, 2, bytes_at img_strndx_high 256 17, l⟩ ∧ l.length = 2 :=
  ⟨by rfl, by rfl, by rfl,
    strndx_beyond_shnum_not_rejected heap_any fs_ext4 img_strndx_high 64 2 2 64 64 17 256
      (by rfl) (Or.inr ⟨by rfl, rfl⟩) (by decide) (by rfl) (by rfl) (by rfl) (by rfl)
      (by decide) (by decide) (by decide) (by rfl) (by rfl) (by decide) (by decide)
      rfl rfl rfl⟩

/-- C5, counterexample to the claim as stated: with `e_shnum = 2` and
`e_shstrndx = 2` the run is not rejected; it prints the table. -/
theorem strndx_equal_shnum_prints :
    E .e_shnum 64 (ehdr 64 img_strndx_high) = .ok 2 ∧
      E .e_shstrndx 64 (ehdr 64 img_strndx_high) = .ok 2 ∧
      disp_sections heap_any (fopen fs_ext4 img_strndx_high) =
        .ok [.title, .rule, .row 0x1000 0x200 dot_text, .rule] :=
  ⟨by rfl, by rfl, by rfl⟩

/-! ## C6: a name offset at or past the end of the string table -/

/-- C6 (as the code has it): `disp_sections` never compares `sh_name` with the
length of the string table. On an input whose scan completes (with `e_shoff` below
`2^63`), an entry `i` whose `sh_name` is at or past the end of `strtbl` still gets
its descriptor, with that name pointer; and when `i ≥ 1`, `draw` then reads outside
the string table instead of reporting an error. -/
theorem name_offset_not_checked (heap : Nat → Bool) (fs : FileSys) (f : List Byte) (s : Sections)
    (off sz i nm : Nat)
    (hscan : scan_sections heap (fopen fs f) = .ok s)
    (hoff : E .e_shoff s.bits (ehdr s.bits f) = .ok off)
    (hsz : E .e_shentsize s.bits (ehdr s.bits f) = .ok sz)
    (hlt : s.bits = 64 → off < 2 ^ 63)
    (hi : i < s.n_sections)
    (hnm : E .sh_name s.bits (bytes_at f (off + i * sz) sz) = .ok nm)
    (hge : s.strtbl.length ≤ nm) :
    (∃ d, s.all_sects[i]? = some d ∧ d.name = nm) ∧
      (1 ≤ i → disp_sections heap (fopen fs f) = .error .undefined_read) := by
  have hseek : s.bits = 64 → can_seek fs f.length off = true := fun hb => by
    have := bytes_at_lt_of_E _ _ _ _ _ _ hnm
    exact can_seek_of_lt_le fs _ _ (hlt hb) (by omega)
  obtain ⟨-, -, hent⟩ := scan_entries heap f s off sz hscan hoff hsz hseek
  obtain ⟨d, hd, hname, -, -⟩ := hent i hi
  have hdn : d.name = nm := Except.ok.inj (hname.symm.trans hnm)
  refine ⟨⟨d, hd, hdn⟩, ?_⟩
  intro h1
  rw [disp_sections_of_scan_ok heap _ s hscan]
  apply draw_undefined s.strtbl s.n_sections s.all_sects i d h1 hi hd
  intro name hname
  obtain ⟨-, rest, hrest⟩ := (c_string_ok_iff _ _).mp hname
  have : s.strtbl.drop d.name = [] := List.drop_eq_nil_of_le (by omega)
  rw [this] at hrest
  cases name <;> cases hrest

/-- C6, witness: entry 1 has `sh_name = 11`, the length of the string table. -/
theorem name_offset_not_checked_witness :
    scan_sections heap_any (fopen fs_ext4 img_name_at_end1) =
        .ok ⟨64, 2, [0] ++ dot_shstrtab ++ [0], [⟨0, 0, 0⟩, ⟨11, 192, 11⟩]⟩ ∧
      E .sh_name 64 (bytes_at img_name_at_end1 (64 + 1 * 64) 64) = .ok 11 ∧
      ([0] ++ dot_shstrtab ++ [0]).length = 11 ∧
      disp_sections heap_any (fopen fs_ext4 img_name_at_end1) = .error .undefined_read :=
  ⟨by rfl, by rfl, by rfl,
    (name_offset_not_checked heap_any fs_ext4 img_name_at_end1
      ⟨64, 2, [0] ++ dot_shstrtab ++ [0], [⟨0, 0, 0⟩, ⟨11, 192, 11⟩]⟩ 64 64 1 11
      (by rfl) (by rfl) (by rfl) (by decide) (by decide) (by rfl) (by decide)).2 (by decide)⟩

/-- C6, counterexample to the claim as stated: entry 0 has `sh_name = 11`, exactly
the length of the loaded string table, and the run neither fails nor drops the
entry: the scan returns a descriptor for it and the table is printed. -/
theorem name_at_table_end_accepted :
    E .sh_name 64 (bytes_at img_name_at_end0 (64 + 0 * 64) 64) = .ok 11 ∧
      scan_sections heap_any (fopen fs_ext4 img_name_at_end0) =
        .ok ⟨64, 2, [0] ++ dot_shstrtab ++ [0], [⟨0, 0, 11⟩, ⟨11, 192, 1⟩]⟩ ∧
      ([0] ++ dot_shstrtab ++ [0] : List Byte).length = 11 ∧
      disp_sections heap_any (fopen fs_ext4 img_name_at_end0) =
        .ok [.title, .rule, .row 192 11 dot_shstrtab, .rule] :=
  ⟨by rfl, by rfl, by rfl, by rfl⟩

/-! ## C7: how a name is resolved -/

/-- C7 (as the code has it): a name is resolved by `%s` in `draw`, for the
descriptors of index 1 and up. When the run completes, row `i` carries the bytes of
`strtbl` from the descriptor's `sh_name` up to, not including, the first NUL at or
after it, and that NUL lies inside `strtbl`; the text is a function of the buffer
and the offset alone. Nothing is said for a name with no NUL after it: there the
read leaves the buffer. -/
theorem names_end_at_nul (heap : Nat → Bool) (fs : FileSys) (f : List Byte) (s : Sections)
    (out : List Line)
    (hscan : scan_sections heap (fopen fs f) = .ok s)
    (hout : disp_sections heap (fopen fs f) = .ok out) :
    out.length = (s.n_sections - 1) + 3 ∧
      ∀ i, 1 ≤ i → i < s.n_sections → ∃ d nm, s.all_sects[i]? = some d ∧
        out[i + 1]? = some (.row d.offset d.size nm) ∧
        c_string (s.strtbl.drop d.name) = .ok nm ∧
        (0 : Byte) ∉ nm ∧
        bytes_at s.strtbl d.name (nm.length + 1) = nm ++ [0] ∧
        d.name + nm.length < s.strtbl.length := by
  rw [disp_sections_of_scan_ok heap _ s hscan] at hout
  obtain ⟨rows, hrows, rfl⟩ := (draw_ok_iff _ _ _ _).mp hout
  obtain ⟨hlen, hall⟩ := (draw_rows_ok_iff _ _ _ _ _).mp hrows
  refine ⟨by simp [hlen], ?_⟩
  intro i h1 hi
  obtain ⟨d, nm, hd, hnm, hrow⟩ := hall (i - 1) (by omega)
  have e : 1 + (i - 1) = i := by omega
  rw [e] at hd
  obtain ⟨h0, rest, hrest⟩ := (c_string_ok_iff _ _).mp hnm
  refine ⟨d, nm, hd, ?_, hnm, h0, ?_, ?_⟩
  · have e2 : i + 1 = (i - 1) + 1 + 1 := by omega
    have e3 : (Line.title :: Line.rule :: rows ++ [Line.rule]) =
        Line.title :: Line.rule :: (rows ++ [Line.rule]) := rfl
    rw [e3, e2, List.getElem?_cons_succ, List.getElem?_cons_succ,
      List.getElem?_append_left (by omega)]
    exact hrow
  · unfold bytes_at
    rw [hrest]
    exact take_succ_append_cons nm rest 0
  · have hl := congrArg List.length hrest
    simp only [List.length_drop, List.length_append, List.length_cons] at hl
    omega

/-- C7, witness: the class-32 image; row 1 is named ".shstrtab". -/
theorem names_end_at_nul_witness :
    disp_sections heap_any (fopen fs_ext4 img32) =
        .ok [.title, .rule, .row 132 11 dot_shstrtab, .rule] ∧
      ∃ d nm, ([⟨0, 0, 0⟩, ⟨11, 132, 1⟩] : List sect_t)[1]? = some d ∧
        [Line.title, .rule, .row 132 11 dot_shstrtab, .rule][1 + 1]? =
          some (.row d.offset d.size nm) ∧
        c_string (([0] ++ dot_shstrtab ++ [0]).drop d.name) = .ok nm ∧
        (0 : Byte) ∉ nm ∧
        bytes_at ([0] ++ dot_shstrtab ++ [0]) d.name (nm.length + 1) = nm ++ [0] ∧
        d.name + nm.length < ([0] ++ dot_shstrtab ++ [0] : List Byte).length :=
  ⟨by rfl, (names_end_at_nul heap_any fs_ext4 img32
    ⟨32, 2, [0] ++ dot_shstrtab ++ [0], [⟨0, 0, 0⟩, ⟨11, 132, 1⟩]⟩
    [.title, .rule, .row 132 11 dot_shstrtab, .rule] (by rfl) (by rfl)).2 1 (by decide)
    (by decide)⟩

/-- C7, counterexample to the claim as stated: the string table is the five bytes
".text" with no NUL after them and entry 1 has `sh_name = 0`. The claim gives the
name ".text", ended by the end of the buffer; the `%s` of `draw` does not stop
there and reads outside the buffer. -/
theorem name_without_nul_leaves_buffer :
    scan_sections heap_any (fopen fs_ext4 img_no_nul) =
        .ok ⟨64, 2, dot_text, [⟨0, 0, 0⟩, ⟨5, 192, 0⟩]⟩ ∧
      c_string (dot_text.drop 0) = .error .undefined_read ∧
      disp_sections heap_any (fopen fs_ext4 img_no_nul) = .error .undefined_read :=
  ⟨by rfl, by rfl, by rfl⟩

/-! ## C8: the round trip -/

/-- C8: round trip. For every list of sections `secs` and every 64-bit image `f`
that encodes it (`Encodes64`: entry `i + 1` of the table carries the size, the
offset and the place of the NUL-terminated name of `secs[i]`, and the entry of
index `e_shstrndx` locates the string table), `disp_sections` prints exactly the
rows of `secs`, in the encoded order, and the scan returns `secs.length + 1`
descriptors whose non-null entries have those sizes, offsets and names. -/
theorem roundtrip_encoded (heap : Nat → Bool) (fs : FileSys) (f : List Byte) (L : Layout)
    (secs : List Sec)
    (henc : Encodes64 f L secs)
    (hh1 : heap L.shentsize = true) (hh2 : heap L.strsz = true)
    (hh3 : heap ((secs.length + 1) * sizeof_sect_t) = true) :
    disp_sections heap (fopen fs f) = .ok (table_of secs) ∧
      ∃ l, scan_sections heap (fopen fs f) =
          .ok ⟨64, secs.length + 1, bytes_at f L.stroff L.strsz, l⟩ ∧
        l.length = secs.length + 1 ∧
        ∀ i s, secs[i]? = some s → ∃ d, l[i + 1]? = some d ∧
          d.size = s.size ∧ d.offset = s.offset ∧
          c_string ((bytes_at f L.stroff L.strsz).drop d.name) = .ok s.name := by
  have hw : 64 ≤ L.shentsize := henc.whole
  have htab := henc.table
  have hstr := henc.str_entry
  have hst := henc.str_table
  have hbelow := henc.below
  have hmul : L.shentsize ≤ (secs.length + 1) * L.shentsize := Nat.le_mul_of_pos_left _ (by omega)
  obtain ⟨l, hl, hlen⟩ :=
    read_sects_exists 64 L.shentsize (secs.length + 1) f L.shoff henc.whole henc.table
  have hscan := scan_sections_ok_of heap f 64 (secs.length + 1) L.shstrndx L.shentsize L.shoff
    L.strsz L.stroff l henc.has_magic (Or.inr ⟨henc.has_class, rfl⟩)
    (show 64 ≤ f.length by omega) henc.shnum henc.shstrndx henc.shentsize henc.shoff hh1 hh2 hh3
    (can_seek_of_le fs _ _ (by omega) hbelow) (by omega) henc.str_size henc.str_offset
    (can_seek_of_le fs _ _ (by omega) hbelow) (by omega) (can_seek_of_le fs _ _ (by omega) hbelow)
    hl
  obtain ⟨-, hent⟩ := (read_sects_ok_iff _ _ _ _ _ _).mp hl
  have key : ∀ i s, secs[i]? = some s → ∃ d, l[i + 1]? = some d ∧
      d.size = s.size ∧ d.offset = s.offset ∧
      c_string ((bytes_at f L.stroff L.strsz).drop d.name) = .ok s.name := by
    intro i s hs
    have hi : i < secs.length := (List.getElem?_eq_some_iff.mp hs).1
    obtain ⟨-, d, hd, hname, hsize, hoffset⟩ := hent (i + 1) (by omega)
    obtain ⟨es, eo, p, ep, hp⟩ := henc.entries i s hs
    have e1 : d.size = s.size := Except.ok.inj (hsize.symm.trans es)
    have e2 : d.offset = s.offset := Except.ok.inj (hoffset.symm.trans eo)
    have e3 : d.name = p := Except.ok.inj (hname.symm.trans ep)
    refine ⟨d, hd, e1, e2, ?_⟩
    rw [c_string_ok_iff]
    refine ⟨henc.nul_free s (List.getElem?_mem hs), ?_⟩
    refine ⟨((bytes_at f L.stroff L.strsz).drop p).drop (s.name.length + 1), ?_⟩
    have := (List.take_append_drop (s.name.length + 1)
      ((bytes_at f L.stroff L.strsz).drop p)).symm
    have hp' : ((bytes_at f L.stroff L.strsz).drop p).take (s.name.length + 1) =
        s.name ++ [0] := hp
    rw [e3]
    rw [hp'] at this
    simpa using this
  refine ⟨?_, l, hscan, hlen, key⟩
  rw [disp_sections_of_scan_ok heap _ _ hscan]
  simp only []
  rw [draw_ok_iff]
  refine ⟨secs.map (fun s : Sec => Line.row s.offset s.size s.name), ?_, rfl⟩
  rw [draw_rows_ok_iff]
  refine ⟨by simp, ?_⟩
  intro j hj
  have hj' : j < secs.length := by omega
  obtain ⟨d, hd, e1, e2, hc⟩ := key j secs[j] (List.getElem?_eq_getElem hj')
  have e : 1 + j = j + 1 := by omega
  rw [e]
  refine ⟨d, secs[j].name, hd, hc, ?_⟩
  rw [List.getElem?_map, List.getElem?_eq_getElem hj', e1, e2]
  rfl

/-- C8, witness: the three-section image of the scenario. -/
theorem roundtrip_encoded_witness :
    disp_sections heap_any (fopen fs_ext4 img_roundtrip) =
        .ok [.title, .rule, .row 0x1000 0x200 dot_text, .row 0x1200 0x50 dot_data, .rule] ∧
      scan_sections heap_any (fopen fs_ext4 img_roundtrip) =
        .ok ⟨64, 3, img_roundtrip_strtab,
          [⟨0, 0, 0⟩, ⟨0x200, 0x1000, 1⟩, ⟨0x50, 0x1200, 7⟩]⟩ ∧
      ∃ l, scan_sections heap_any (fopen fs_ext4 img_roundtrip) =
          .ok ⟨64, 3, bytes_at img_roundtrip 0x1200 0x50, l⟩ ∧
        l.length = 3 :=
  have henc : Encodes64 img_roundtrip ⟨64, 64, 2, 0x1200, 0x50⟩ secs_roundtrip :=
    { has_magic := by rfl
      has_class := (List.getElem?_take_of_lt (by decide : 4 < 16)).symm.trans (by rfl)
      below := by rw [img_roundtrip_length]; decide
      shnum := by rfl
      shstrndx := by rfl
      shentsize := by rfl
      shoff := by rfl
      whole := by decide
      table := by rw [img_roundtrip_length]; decide
      str_entry := by rw [img_roundtrip_length]; decide
      str_offset := by rfl
      str_size := by rfl
      str_table := by rw [img_roundtrip_length]; decide
      nul_free := by decide
      entries := by
        intro i s hs
        match i, hs with
        | 0, hs => cases hs; exact ⟨by rfl, by rfl, 1, by rfl, by rfl⟩
        | 1, hs => cases hs; exact ⟨by rfl, by rfl, 7, by rfl, by rfl⟩
        | n + 2, hs => cases hs }
  have h := roundtrip_encoded heap_any fs_ext4 img_roundtrip ⟨64, 64, 2, 0x1200, 0x50⟩
    secs_roundtrip henc rfl rfl rfl
  ⟨h.1, by rfl, by
    obtain ⟨l, h1, h2, -⟩ := h.2
    exact ⟨l, h1, h2⟩⟩

/-! ## C9: no sections -/

/-- C9 (as the code has it): a class-32 input with a complete file header and
`e_shnum = 0` still has its string table loaded first. When the entry at
`e_shoff + e_shstrndx * e_shentsize` and the range it declares lie inside the
file, and the allocations are granted, the run succeeds with an empty descriptor
sequence and prints a table without rows. -/
theorem no_sections_ok (heap : Nat → Bool) (fs : FileSys) (f : List Byte)
    (idx sz off ssz soff : Nat)
    (hmag : f.take 4 = magic) (hcls : f[4]? = some ELFCLASS32) (hhdr : 52 ≤ f.length)
    (hn : E .e_shnum 32 (ehdr 32 f) = .ok 0)
    (hidx : E .e_shstrndx 32 (ehdr 32 f) = .ok idx)
    (hsz : E .e_shentsize 32 (ehdr 32 f) = .ok sz)
    (hoff : E .e_shoff 32 (ehdr 32 f) = .ok off)
    (hent : off + idx * sz + sz ≤ f.length)
    (hssz : E .sh_size 32 (bytes_at f (off + idx * sz) sz) = .ok ssz)
    (hsoff : E .sh_offset 32 (bytes_at f (off + idx * sz) sz) = .ok soff)
    (hstr : soff + ssz ≤ f.length)
    (hh1 : heap sz = true) (hh2 : heap ssz = true) (hh3 : heap 0 = true) :
    scan_sections heap (fopen fs f) = .ok ⟨32, 0, bytes_at f soff ssz, []⟩ ∧
      disp_sections heap (fopen fs f) = .ok [.title, .rule, .rule] := by
  have b1 := E_lt_32 _ _ _ hoff
  have b2 := E_half_lt _ _ _ _ (Or.inr (Or.inr rfl)) hidx
  have b3 := E_half_lt _ _ _ _ (Or.inl rfl) hsz
  have b4 := E_lt_32 _ _ _ hsoff
  have b5 : idx * sz < 2 ^ 16 * 2 ^ 16 := Nat.mul_lt_mul'' b2 b3
  have hscan : scan_sections heap (fopen fs f) = .ok ⟨32, 0, bytes_at f soff ssz, []⟩ :=
    scan_sections_ok_of heap f 32 0 idx sz off ssz soff [] hmag (Or.inl ⟨hcls, rfl⟩) hhdr hn
      hidx hsz hoff hh1 hh2 (by simpa using hh3)
      (can_seek_of_lt_le fs _ _ (by omega) (by omega)) (by omega) hssz hsoff
      (can_seek_of_lt32 fs _ _ b4) (by omega) (can_seek_of_lt32 fs _ _ b1) rfl
  refine ⟨hscan, ?_⟩
  unfold disp_sections
  rw [hscan]
  rfl

/-- C9, witness: a class-32 image with `e_shnum = 0` whose entry 0 locates a
one-byte string table. -/
theorem no_sections_ok_witness :
    E .e_shnum 32 (ehdr 32 img32_empty) = .ok 0 ∧
      scan_sections heap_any (fopen fs_ext4 img32_empty) =
        .ok ⟨32, 0, bytes_at img32_empty 92 1, []⟩ ∧
      disp_sections heap_any (fopen fs_ext4 img32_empty) = .ok [.title, .rule, .rule] :=
  ⟨by rfl, no_sections_ok heap_any fs_ext4 img32_empty 0 40 52 1 92 (by rfl) (by rfl) (by decide)
    (by rfl) (by rfl) (by rfl) (by rfl) (by decide) (by rfl) (by rfl) (by decide) rfl rfl rfl⟩

/-- C9, counterexample to the claim as stated: a complete 52-byte class-32 header
with `e_shnum = 0`, `e_shentsize = 40`, `e_shoff = 52` and nothing after it. The
read of the string-table entry finds no bytes and the run stops with "Could not
read requested amount from input file". -/
theorem no_sections_header_only_fails :
    img_hdr32_only.length = 52 ∧ img_hdr32_only[4]? = some ELFCLASS32 ∧
      E .e_shnum 32 (ehdr 32 img_hdr32_only) = .ok 0 ∧
      scan_sections heap_any (fopen fs_ext4 img_hdr32_only) = .error .read_amount ∧
      disp_sections heap_any (fopen fs_ext4 img_hdr32_only) = .error .read_amount :=
  ⟨by rfl, by rfl, by rfl, by rfl, by rfl⟩

/-! ## C10: the string table buffer -/

/-- C10 (as the code has it): when the scan completes and the seek to the
string-table entry at `e_shoff + e_shstrndx * e_shentsize` succeeds (the offset is
below `2^63` and not above the largest offset the file system accepts), that entry
has an `sh_offset` `o` and an `sh_size` `len`, and if the seek to `o` succeeds too,
`strtbl` is exactly the `len` file bytes `[o, o + len)`. -/
theorem strtbl_is_declared_range (heap : Nat → Bool) (fs : FileSys) (f : List Byte) (s : Sections)
    (off idx sz : Nat)
    (hscan : scan_sections heap (fopen fs f) = .ok s)
    (hoff : E .e_shoff s.bits (ehdr s.bits f) = .ok off)
    (hidx : E .e_shstrndx s.bits (ehdr s.bits f) = .ok idx)
    (hsz : E .e_shentsize s.bits (ehdr s.bits f) = .ok sz)
    (hseek : can_seek fs f.length (off + idx * sz) = true) :
    ∃ o len, E .sh_offset s.bits (bytes_at f (off + idx * sz) sz) = .ok o ∧
      E .sh_size s.bits (bytes_at f (off + idx * sz) sz) = .ok len ∧
      (can_seek fs f.length o = true → s.strtbl = bytes_at f o len ∧ s.strtbl.length = len) := by
  obtain ⟨-, -, -, hr⟩ := scan_ok_inv heap f s hscan
  obtain ⟨n, idx', sz', off', ssz, soff, l, -, -, hidx', hsz', hoff', -, -, -, hr1, hssz, hsoff,
    hr2, -, hs⟩ := (read_sections_ok_iff heap s.bits f 16 s).mp hr
  have e1 : off' = off := Except.ok.inj (hoff'.symm.trans hoff)
  have e2 : sz' = sz := Except.ok.inj (hsz'.symm.trans hsz)
  have e3 : idx' = idx := Except.ok.inj (hidx'.symm.trans hidx)
  subst e1 e2 e3
  have hlt := can_seek_lt fs _ _ hseek
  have hm1 : idx' * sz' % 2 ^ 64 = idx' * sz' := Nat.mod_eq_of_lt (by omega)
  have hm2 : (off' + idx' * sz') % 2 ^ 64 = off' + idx' * sz' := Nat.mod_eq_of_lt (by omega)
  rw [hm1, hm2, seek_pos_of_can _ _ _ _ hseek] at hr1 hssz hsoff hr2 hs
  refine ⟨soff, ssz, hsoff, hssz, ?_⟩
  intro ho
  rw [seek_pos_of_can _ _ _ _ ho] at hr2 hs
  have hst : s.strtbl = bytes_at f soff ssz := congrArg Sections.strtbl hs
  exact ⟨hst, by rw [hst]; exact bytes_at_length f soff ssz hr2⟩

/-- C10, witness: the class-32 image keeps its 11-byte string table at 132. -/
theorem strtbl_is_declared_range_witness :
    scan_sections heap_any (fopen fs_ext4 img32) =
        .ok ⟨32, 2, [0] ++ dot_shstrtab ++ [0], [⟨0, 0, 0⟩, ⟨11, 132, 1⟩]⟩ ∧
      E .sh_offset 32 (bytes_at img32 (52 + 1 * 40) 40) = .ok 132 ∧
      E .sh_size 32 (bytes_at img32 (52 + 1 * 40) 40) = .ok 11 ∧
      [0] ++ dot_shstrtab ++ [0] = bytes_at img32 132 11 := by
  obtain ⟨o, len, ho, hlen, h⟩ := strtbl_is_declared_range heap_any fs_ext4 img32
    ⟨32, 2, [0] ++ dot_shstrtab ++ [0], [⟨0, 0, 0⟩, ⟨11, 132, 1⟩]⟩ 52 1 40
    (by rfl) (by rfl) (by rfl) (by rfl) (by rfl)
  have ho' : E .sh_offset 32 (bytes_at img32 (52 + 1 * 40) 40) = .ok 132 := by rfl
  have hlen' : E .sh_size 32 (bytes_at img32 (52 + 1 * 40) 40) = .ok 11 := by rfl
  have e1 : o = 132 := Except.ok.inj (ho.symm.trans ho')
  have e2 : len = 11 := Except.ok.inj (hlen.symm.trans hlen')
  subst e1 e2
  exact ⟨by rfl, ho', hlen', (h (by rfl)).1⟩

/-- C10, counterexample to the claim as stated: on a file system whose largest
offset is `2^44 - 4096`, this 203-byte class-64 image has its string-table entry at
`64 + 1 * 64`, declaring 11 bytes at `sh_offset = 2^44`, below `2^63`. The seek to
`2^44` fails and the stream stays at 192, after the entry: the scan completes, the
table is printed, and `strtbl` is the 11 file bytes at 192, not the file bytes
`[2^44, 2^44 + 11)`, of which there are none. -/
theorem far_strtab_reads_elsewhere :
    E .e_shoff 64 (ehdr 64 img_far_strtab) = .ok 64 ∧
      E .e_shstrndx 64 (ehdr 64 img_far_strtab) = .ok 1 ∧
      E .e_shentsize 64 (ehdr 64 img_far_strtab) = .ok 64 ∧
      E .sh_offset 64 (bytes_at img_far_strtab (64 + 1 * 64) 64) = .ok (2 ^ 44) ∧
      E .sh_size 64 (bytes_at img_far_strtab (64 + 1 * 64) 64) = .ok 11 ∧
      can_seek fs_ext4 img_far_strtab.length (2 ^ 44) = false ∧
      scan_sections heap_any (fopen fs_ext4 img_far_strtab) =
        .ok ⟨64, 2, bytes_at img_far_strtab 192 11, [⟨0, 0, 0⟩, ⟨11, 2 ^ 44, 1⟩]⟩ ∧
      disp_sections heap_any (fopen fs_ext4 img_far_strtab) =
        .ok [.title, .rule, .row (2 ^ 44) 11 dot_shstrtab, .rule] ∧
      bytes_at img_far_strtab 192 11 = [0] ++ dot_shstrtab ++ [0] ∧
      bytes_at img_far_strtab (2 ^ 44) 11 = [] :=
  ⟨by rfl, by rfl, by rfl, by rfl, by rfl, by rfl, by rfl, by rfl, by rfl, by rfl⟩

/-! ## C11: a file that ends too early -/

/-- C11 (as the code has it): on an input with a valid file header whose
string-table entry lies inside the file at an offset below `2^63` (the allocation
of `shdr` granted), what follows depends on the allocator and the file system.
When the buffer of `sh_size` bytes is refused, the run stops with "Could not
allocate enough memory to store the string table". When it is granted, the seek
to `sh_offset` succeeds and the declared string table, of size `sh_size > 0`, runs
past the end of the file, the run stops in `safe_fread` with no descriptor: with
"Could not read requested amount from input file" when the file system does not
refuse that read with an error, with "Error %d reading from input file" when it
does. When the string table lies inside the file with `sh_offset` below `2^63`,
the descriptor array is granted, the file ends before
`e_shoff + e_shnum * e_shentsize` with `e_shnum > 0`, and no read of an entry that
starts inside the file is refused with an error, the run stops with "Could not
read requested amount from input file" too. -/
theorem short_file_read_amount (heap : Nat → Bool) (fs : FileSys) (f : List Byte)
    (bits n idx sz off ssz soff : Nat)
    (hmag : f.take 4 = magic)
    (hcls : (f[4]? = some ELFCLASS32 ∧ bits = 32) ∨ (f[4]? = some ELFCLASS64 ∧ bits = 64))
    (hhdr : E_SZ .Ehdr bits ≤ f.length)
    (hn : E .e_shnum bits (ehdr bits f) = .ok n)
    (hidx : E .e_shstrndx bits (ehdr bits f) = .ok idx)
    (hsz : E .e_shentsize bits (ehdr bits f) = .ok sz)
    (hoff : E .e_shoff bits (ehdr bits f) = .ok off)
    (hh1 : heap sz = true)
    (hlt : off + idx * sz < 2 ^ 63)
    (hent : off + idx * sz + sz ≤ f.length)
    (hssz : E .sh_size bits (bytes_at f (off + idx * sz) sz) = .ok ssz)
    (hsoff : E .sh_offset bits (bytes_at f (off + idx * sz) sz) = .ok soff) :
    (heap ssz = false →
      scan_sections heap (fopen fs f) = .error .alloc_strtbl ∧
      disp_sections heap (fopen fs f) = .error .alloc_strtbl) ∧
    (heap ssz = true → can_seek fs f.length soff = true → 0 < ssz → f.length < soff + ssz →
      fs.io_error soff ssz = false →
      scan_sections heap (fopen fs f) = .error .read_amount ∧
      disp_sections heap (fopen fs f) = .error .read_amount) ∧
    (heap ssz = true → can_seek fs f.length soff = true → 0 < ssz → f.length < soff + ssz →
      fs.io_error soff ssz = true →
      scan_sections heap (fopen fs f) = .error .read_error ∧
      disp_sections heap (fopen fs f) = .error .read_error) ∧
    (heap ssz = true → soff < 2 ^ 63 → soff + ssz ≤ f.length →
      heap (n * sizeof_sect_t) = true → 0 < n → f.length < off + n * sz →
      (∀ q, q ≤ f.length → fs.io_error q sz = false) →
      scan_sections heap (fopen fs f) = .error .read_amount ∧
      disp_sections heap (fopen fs f) = .error .read_amount) := by
  have h16 : 16 ≤ f.length := by
    have : 52 ≤ E_SZ .Ehdr bits := by unfold E_SZ; split <;> simp
    omega
  have hm1 : idx * sz % 2 ^ 64 = idx * sz := Nat.mod_eq_of_lt (by omega)
  have hm2 : (off + idx * sz) % 2 ^ 64 = off + idx * sz := Nat.mod_eq_of_lt (by omega)
  have hr1 : sz ≤ f.length - (off + idx * sz) := by omega
  have hseek : can_seek fs f.length (off + idx * sz) = true :=
    can_seek_of_lt_le fs _ _ hlt (by omega)
  have hflat : scan_sections heap (fopen fs f) =
      if heap ssz = true then
        if ssz ≤ f.length - seek_pos fs f.length (off + idx * sz + sz) soff then
          if heap (n * sizeof_sect_t) = true then
            read_sects bits sz n ⟨f, seek_pos fs f.length
              (seek_pos fs f.length (off + idx * sz + sz) soff + ssz) off, fs, false⟩ >>= fun l =>
            .ok ⟨bits, n, bytes_at f (seek_pos fs f.length (off + idx * sz + sz) soff) ssz, l⟩
          else .error .alloc_sects
        else .error (short_read fs (seek_pos fs f.length (off + idx * sz + sz) soff) ssz)
      else .error .alloc_strtbl := by
    rw [scan_sections_of_class heap f bits h16 hmag hcls, read_sections_flat]
    simp only [if_pos hhdr, hn, hidx, hsz, hoff, hh1, hm1, hm2, seek_pos_of_can _ _ _ _ hseek,
      if_pos hr1, hssz, hsoff, bind, Except.bind, if_true]
  have both : ∀ e, scan_sections heap (fopen fs f) = .error e →
      scan_sections heap (fopen fs f) = .error e ∧ disp_sections heap (fopen fs f) = .error e :=
    fun e h => ⟨h, disp_sections_of_scan_error heap _ _ h⟩
  refine ⟨?_, ?_, ?_, ?_⟩
  · intro hh2
    apply both
    rw [hflat, hh2]
    rfl
  · intro hh2 hso hpos hs hio
    apply both
    rw [hflat, if_pos hh2, seek_pos_of_can _ _ _ _ hso, if_neg (by omega)]
    unfold short_read
    rw [hio]
    rfl
  · intro hh2 hso hpos hs hio
    apply both
    rw [hflat, if_pos hh2, seek_pos_of_can _ _ _ _ hso, if_neg (by omega)]
    unfold short_read
    rw [hio]
    rfl
  · intro hh2 hso hs hh3 hnpos htab hio
    apply both
    have hso' : can_seek fs f.length soff = true := can_seek_of_lt_le fs _ _ hso (by omega)
    have hoff' : can_seek fs f.length off = true := can_seek_of_lt_le fs _ _ (by omega) (by omega)
    have hbl := bytes_at_length f (off + idx * sz) sz hr1
    have hloop := read_sects_short bits sz n f off
      (fun buf hb m hm => E_shdr_ok_of_sh_size bits _ buf _ hssz (by rw [hbl, hb]) m hm)
      hnpos htab (by omega) hio
    rw [hflat, if_pos hh2, seek_pos_of_can _ _ _ _ hso', if_pos (by omega), if_pos hh3,
      seek_pos_of_can _ _ _ _ hoff', hloop]
    rfl

/-- C11, witness: with every request granted, a string-table entry that declares
17 bytes at 172 in a file that ends at 180; on a file system that refuses a read
which would pass `2^63`, an entry that declares 16 bytes at `2^63 - 8`; a table of
four entries at 52 in a file that ends at 189; and with an allocator that refuses
`2^63` bytes, an entry that declares a string table of that size. -/
theorem short_file_read_amount_witness :
    (E .sh_offset 32 (bytes_at img32_short_strtab (52 + 2 * 40) 40) = .ok 172 ∧
      E .sh_size 32 (bytes_at img32_short_strtab (52 + 2 * 40) 40) = .ok 17 ∧
      img32_short_strtab.length = 180 ∧
      scan_sections heap_any (fopen fs_ext4 img32_short_strtab) = .error .read_amount ∧
      disp_sections heap_any (fopen fs_ext4 img32_short_strtab) = .error .read_amount) ∧
    (E .sh_offset 64 (bytes_at img_strtab_at_top (64 + 0 * 64) 64) = .ok (2 ^ 63 - 8) ∧
      E .sh_size 64 (bytes_at img_strtab_at_top (64 + 0 * 64) 64) = .ok 16 ∧
      scan_sections heap_any (fopen fs_tmpfs img_strtab_at_top) = .error .read_error ∧
      disp_sections heap_any (fopen fs_tmpfs img_strtab_at_top) = .error .read_error) ∧
    (E .e_shnum 32 (ehdr 32 img32_short_table) = .ok 4 ∧
      img32_short_table.length = 189 ∧
      scan_sections heap_any (fopen fs_ext4 img32_short_table) = .error .read_amount ∧
      disp_sections heap_any (fopen fs_ext4 img32_short_table) = .error .read_amount) ∧
    (heap_ptrdiff (2 ^ 63) = false ∧
      scan_sections heap_ptrdiff (fopen fs_ext4 img_huge_strtab) = .error .alloc_strtbl ∧
      disp_sections heap_ptrdiff (fopen fs_ext4 img_huge_strtab) = .error .alloc_strtbl) :=
  ⟨⟨by rfl, by rfl, by rfl,
      (short_file_read_amount heap_any fs_ext4 img32_short_strtab 32 3 2 40 52 17 172
        (by rfl) (Or.inl ⟨by rfl, rfl⟩) (by decide) (by rfl) (by rfl) (by rfl) (by rfl) rfl
        (by decide) (by decide) (by rfl) (by rfl)).2.1
        rfl (by rfl) (by decide) (by decide) rfl⟩,
    ⟨by rfl, by rfl,
      (short_file_read_amount heap_any fs_tmpfs img_strtab_at_top 64 1 0 64 64 16 (2 ^ 63 - 8)
        (by rfl) (Or.inr ⟨by rfl, rfl⟩) (by decide) (by rfl) (by rfl) (by rfl) (by rfl) rfl
        (by decide) (by decide) (by rfl) (by rfl)).2.2.1
        rfl (by rfl) (by decide) (by decide) (by rfl)⟩,
    ⟨by rfl, by rfl,
      (short_file_read_amount heap_any fs_ext4 img32_short_table 32 4 2 40 52 17 172
        (by rfl) (Or.inl ⟨by rfl, rfl⟩) (by decide) (by rfl) (by rfl) (by rfl) (by rfl) rfl
        (by decide) (by decide) (by rfl) (by rfl)).2.2.2
        rfl (by decide) (by decide) rfl (by decide) (by decide) (fun _ _ => rfl)⟩,
    ⟨by rfl,
      (short_file_read_amount heap_ptrdiff fs_ext4 img_huge_strtab 64 1 0 64 64 (2 ^ 63) 128
        (by rfl) (Or.inr ⟨by rfl, rfl⟩) (by decide) (by rfl) (by rfl) (by rfl) (by rfl) (by rfl)
        (by decide) (by decide) (by rfl) (by rfl)).1 (by rfl)⟩⟩

/-- C11, counterexample to the claim as stated: the string-table entry is read and
declares `sh_size = 2^63` bytes at `sh_offset = 128`, past the end of the 128-byte
file. `malloc` cannot grant `2^63` bytes and the run stops with "Could not allocate
enough memory to store the string table", not with the read error. -/
theorem huge_strtab_alloc_error :
    img_huge_strtab.length = 128 ∧
      E .sh_offset 64 (bytes_at img_huge_strtab 64 64) = .ok 128 ∧
      E .sh_size 64 (bytes_at img_huge_strtab 64 64) = .ok (2 ^ 63) ∧
      heap_ptrdiff (2 ^ 63) = false ∧
      scan_sections heap_ptrdiff (fopen fs_ext4 img_huge_strtab) = .error .alloc_strtbl ∧
      disp_sections heap_ptrdiff (fopen fs_ext4 img_huge_strtab) = .error .alloc_strtbl :=
  ⟨by rfl, by rfl, by rfl, by rfl, by rfl, by rfl⟩

/-! ## C12: where the members are read -/

/-- C12: the members are taken at the offsets the format defines, in host byte
order. In the 32-bit layout the file header is 52 bytes with `e_shoff` at 32..35,
`e_shentsize` at 46..47, `e_shnum` at 48..49 and `e_shstrndx` at 50..51; in the
64-bit layout it is 64 bytes with `e_shoff` at 40..47, `e_shentsize` at 58..59,
`e_shnum` at 60..61 and `e_shstrndx` at 62..63. In a section entry read at `p`,
`sh_name` is at 0..3 and `sh_offset`, `sh_size` are at 16..19, 20..23 (32-bit) or
24..31, 32..39 (64-bit). The layout of a run is the one its class byte selects. -/
theorem members_at_format_offsets (fs : FileSys) (f : List Byte) :
    (52 ≤ f.length →
        (ehdr 32 f).length = 52 ∧
        E .e_shoff 32 (ehdr 32 f) = .ok (le_nat (bytes_at f 32 4)) ∧
        E .e_shentsize 32 (ehdr 32 f) = .ok (le_nat (bytes_at f 46 2)) ∧
        E .e_shnum 32 (ehdr 32 f) = .ok (le_nat (bytes_at f 48 2)) ∧
        E .e_shstrndx 32 (ehdr 32 f) = .ok (le_nat (bytes_at f 50 2))) ∧
      (64 ≤ f.length →
        (ehdr 64 f).length = 64 ∧
        E .e_shoff 64 (ehdr 64 f) = .ok (le_nat (bytes_at f 40 8)) ∧
        E .e_shentsize 64 (ehdr 64 f) = .ok (le_nat (bytes_at f 58 2)) ∧
        E .e_shnum 64 (ehdr 64 f) = .ok (le_nat (bytes_at f 60 2)) ∧
        E .e_shstrndx 64 (ehdr 64 f) = .ok (le_nat (bytes_at f 62 2))) ∧
      (∀ p sz, 24 ≤ sz → sz ≤ f.length - p →
        E .sh_name 32 (bytes_at f p sz) = .ok (le_nat (bytes_at f p 4)) ∧
        E .sh_offset 32 (bytes_at f p sz) = .ok (le_nat (bytes_at f (p + 16) 4)) ∧
        E .sh_size 32 (bytes_at f p sz) = .ok (le_nat (bytes_at f (p + 20) 4))) ∧
      (∀ p sz, 40 ≤ sz → sz ≤ f.length - p →
        E .sh_name 64 (bytes_at f p sz) = .ok (le_nat (bytes_at f p 4)) ∧
        E .sh_offset 64 (bytes_at f p sz) = .ok (le_nat (bytes_at f (p + 24) 8)) ∧
        E .sh_size 64 (bytes_at f p sz) = .ok (le_nat (bytes_at f (p + 32) 8))) ∧
      (∀ heap s, scan_sections heap (fopen fs f) = .ok s →
        (f[4]? = some ELFCLASS32 ∧ s.bits = 32 ∧ 52 ≤ f.length ∧
            s.n_sections = le_nat (bytes_at f 48 2)) ∨
          (f[4]? = some ELFCLASS64 ∧ s.bits = 64 ∧ 64 ≤ f.length ∧
            s.n_sections = le_nat (bytes_at f 60 2))) := by
  refine ⟨?_, ?_, ?_, ?_, ?_⟩
  · intro h
    have hr : 52 ≤ f.length - 0 := by omega
    refine ⟨bytes_at_length f 0 52 hr, ?_, ?_, ?_, ?_⟩ <;>
      exact load_bytes_at_ok f 0 52 _ _ (by decide) hr
  · intro h
    have hr : 64 ≤ f.length - 0 := by omega
    refine ⟨bytes_at_length f 0 64 hr, ?_, ?_, ?_, ?_⟩ <;>
      exact load_bytes_at_ok f 0 64 _ _ (by decide) hr
  · intro p sz hsz hr
    refine ⟨?_, ?_, ?_⟩
    · exact load_bytes_at_ok f p sz 0 4 (by omega) hr
    · exact load_bytes_at_ok f p sz 16 4 (by omega) hr
    · exact load_bytes_at_ok f p sz 20 4 (by omega) hr
  · intro p sz hsz hr
    refine ⟨?_, ?_, ?_⟩
    · exact load_bytes_at_ok f p sz 0 4 (by omega) hr
    · exact load_bytes_at_ok f p sz 24 8 (by omega) hr
    · exact load_bytes_at_ok f p sz 32 8 (by omega) hr
  · intro heap s hs
    obtain ⟨-, -, hcls, hr⟩ := scan_ok_inv heap f s hs
    obtain ⟨hn, -⟩ := scan_ok_count heap f s hs
    obtain ⟨n, idx, sz, off, ssz, soff, l, hlen, -⟩ :=
      (read_sections_ok_iff heap s.bits f 16 s).mp hr
    rcases hcls with ⟨hc, hb⟩ | ⟨hc, hb⟩
    · left
      rw [hb] at hn hlen
      have := load_bytes_at f 0 52 48 2 _ hn
      exact ⟨hc, hb, hlen, by simpa using this⟩
    · right
      rw [hb] at hn hlen
      have := load_bytes_at f 0 64 60 2 _ hn
      exact ⟨hc, hb, hlen, by simpa using this⟩


/-- C12, witness: the class-32 image `img32`. -/
theorem members_at_format_offsets_witness :
    (ehdr 32 img32).length = 52 ∧
      E .e_shoff 32 (ehdr 32 img32) = .ok (le_nat (bytes_at img32 32 4)) ∧
      le_nat (bytes_at img32 32 4) = 52 ∧
      E .e_shnum 32 (ehdr 32 img32) = .ok (le_nat (bytes_at img32 48 2)) ∧
      le_nat (bytes_at img32 48 2) = 2 ∧
      E .sh_offset 32 (bytes_at img32 92 40) = .ok (le_nat (bytes_at img32 (92 + 16) 4)) ∧
      le_nat (bytes_at img32 (92 + 16) 4) = 132 :=
  have h := members_at_format_offsets fs_ext4 img32
  have h1 := h.1 (by decide)
  have h3 := h.2.2.1 92 40 (by decide) (by decide)
  ⟨h1.1, h1.2.1, by rfl, h1.2.2.2.1, by rfl, h3.2.1, by rfl⟩

/-! ## C13: nothing is printed before the scan completes -/

/-- C13: every `printf` of the table is in `draw`, which runs after the loop over
the `e_shnum` entries. A scan that stops (bad magic, unknown class, short read,
refused allocation) stops the run with the same message and no line printed; a run
that ends in one of the program's error messages ended in the scan; and a run that
prints has read all `e_shnum` entries before. -/
theorem no_output_before_scan_completes (heap : Nat → Bool) (fs : FileSys) (f : List Byte) :
    (∀ e, scan_sections heap (fopen fs f) = .error e →
        disp_sections heap (fopen fs f) = .error e) ∧
      (∀ e, disp_sections heap (fopen fs f) = .error e → e ≠ .undefined_read →
        scan_sections heap (fopen fs f) = .error e) ∧
      (∀ out, disp_sections heap (fopen fs f) = .ok out →
        ∃ s, scan_sections heap (fopen fs f) = .ok s ∧
          E .e_shnum s.bits (ehdr s.bits f) = .ok s.n_sections ∧
          s.all_sects.length = s.n_sections ∧
          draw s.strtbl s.n_sections s.all_sects = .ok out) := by
  refine ⟨fun e h => disp_sections_of_scan_error heap _ e h, ?_, ?_⟩
  · intro e h hne
    cases hs : scan_sections heap (fopen fs f) with
    | error e' =>
      rw [disp_sections_of_scan_error heap _ e' hs] at h
      rw [Except.error.inj h]
    | ok s =>
      rw [disp_sections_of_scan_ok heap _ s hs] at h
      exact absurd (draw_error _ _ _ _ h) hne
  · intro out h
    obtain ⟨s, hs, hd⟩ := disp_ok_inv heap _ out h
    obtain ⟨hn, hlen⟩ := scan_ok_count heap f s hs
    exact ⟨s, hs, hn, hlen, hd⟩

/-- C13, witness: three runs that stop in the scan, and one that prints. -/
theorem no_output_before_scan_completes_witness :
    disp_sections heap_any (fopen fs_ext4 img_not_elf) = .error .not_elf ∧
      disp_sections heap_any (fopen fs_ext4 img_class3) = .error .word_size ∧
      scan_sections heap_any (fopen fs_ext4 img_hdr32_only) = .error .read_amount ∧
      ∃ s, scan_sections heap_any (fopen fs_ext4 img32) = .ok s ∧
        E .e_shnum s.bits (ehdr s.bits img32) = .ok s.n_sections ∧
        s.all_sects.length = s.n_sections ∧
        draw s.strtbl s.n_sections s.all_sects =
          .ok [.title, .rule, .row 132 11 dot_shstrtab, .rule] :=
  ⟨(no_output_before_scan_completes heap_any fs_ext4 img_not_elf).1 _ (by rfl),
    (no_output_before_scan_completes heap_any fs_ext4 img_class3).1 _ (by rfl),
    (no_output_before_scan_completes heap_any fs_ext4 img_hdr32_only).2.1 _ (by rfl) (by decide),
    (no_output_before_scan_completes heap_any fs_ext4 img32).2.2 _ (by rfl)⟩

/-! ## C14: the rows of `draw` -/

/-- C14: for a descriptor sequence of length `n`, whatever `draw` prints is the
title, a rule, exactly `n - 1` rows and a rule; row `j` carries the offset, the size
and the name of descriptor `j + 1`, so the rows are those of the indices
`1 .. n - 1` in increasing order and index 0 has none. `draw` does print when each
of these descriptors has a name, a NUL-terminated string inside `strtbl`. -/
theorem draw_rows_in_order (strtbl : List Byte) (secs : List sect_t) :
    (∀ out, draw strtbl secs.length secs = .ok out →
        ∃ rows, out = .title :: .rule :: rows ++ [.rule] ∧ rows.length = secs.length - 1 ∧
          ∀ j, j < secs.length - 1 → ∃ d nm, secs[j + 1]? = some d ∧
            c_string (strtbl.drop d.name) = .ok nm ∧
            rows[j]? = some (.row d.offset d.size nm)) ∧
      ((∀ i d, 1 ≤ i → secs[i]? = some d → ∃ nm, c_string (strtbl.drop d.name) = .ok nm) →
        ∃ out, draw strtbl secs.length secs = .ok out) := by
  constructor
  · intro out h
    obtain ⟨rows, hrows, rfl⟩ := (draw_ok_iff _ _ _ _).mp h
    obtain ⟨hlen, hall⟩ := (draw_rows_ok_iff _ _ _ _ _).mp hrows
    refine ⟨rows, rfl, hlen, ?_⟩
    intro j hj
    obtain ⟨d, nm, hd, hnm, hrow⟩ := hall j hj
    have e : 1 + j = j + 1 := by omega
    rw [e] at hd
    exact ⟨d, nm, hd, hnm, hrow⟩
  · intro hnames
    obtain ⟨rows, hrows⟩ := draw_rows_exists strtbl secs 1 (secs.length - 1) (by
      intro j hj
      have hlt : 1 + j < secs.length := by omega
      obtain ⟨nm, hnm⟩ := hnames (1 + j) secs[1 + j] (by omega) (List.getElem?_eq_getElem hlt)
      exact ⟨secs[1 + j], nm, List.getElem?_eq_getElem hlt, hnm⟩)
    exact ⟨_, (draw_ok_iff _ _ _ _).mpr ⟨rows, hrows, rfl⟩⟩

/-- C14, witness: three descriptors give two rows, those of indices 1 and 2. -/
theorem draw_rows_in_order_witness :
    draw ([0] ++ dot_text ++ [0] ++ dot_data ++ [0]) 3
        [⟨0, 0, 0⟩, ⟨0x200, 0x1000, 1⟩, ⟨0x50, 0x1200, 7⟩] =
      .ok [.title, .rule, .row 0x1000 0x200 dot_text, .row 0x1200 0x50 dot_data, .rule] ∧
      ∃ out, draw ([0] ++ dot_text ++ [0] ++ dot_data ++ [0])
        ([⟨0, 0, 0⟩, ⟨0x200, 0x1000, 1⟩, ⟨0x50, 0x1200, 7⟩] : List sect_t).length
        [⟨0, 0, 0⟩, ⟨0x200, 0x1000, 1⟩, ⟨0x50, 0x1200, 7⟩] = .ok out :=
  ⟨by rfl, (draw_rows_in_order ([0] ++ dot_text ++ [0] ++ dot_data ++ [0])
    [⟨0, 0, 0⟩, ⟨0x200, 0x1000, 1⟩, ⟨0x50, 0x1200, 7⟩]).2 (by
      intro i d h1 hd
      match i, h1, hd with
      | 1, _, hd => cases hd; exact ⟨dot_text, by rfl⟩
      | 2, _, hd => cases hd; exact ⟨dot_data, by rfl⟩
      | n + 3, _, hd => cases hd)⟩

/-! ## C15: an entry size other than the structure size -/

/-- C15 (as the code has it): `disp_sections` never compares `e_shentsize` with
the size of the section-header structure. A larger `e_shentsize` is used as it is,
as the length of every entry read and as the distance between entries: when the
reads find their bytes (file shorter than `2^63` bytes, allocations granted) the
scan completes and descriptor `i` carries the members found at the start of the
`e_shentsize` bytes at `e_shoff + i * e_shentsize`. -/
theorem entsize_not_checked (heap : Nat → Bool) (fs : FileSys) (f : List Byte)
    (bits n idx sz off ssz soff : Nat)
    (hmag : f.take 4 = magic)
    (hcls : (f[4]? = some ELFCLASS32 ∧ bits = 32) ∨ (f[4]? = some ELFCLASS64 ∧ bits = 64))
    (hhdr : E_SZ .Ehdr bits ≤ f.length)
    (hn : E .e_shnum bits (ehdr bits f) = .ok n)
    (hidx : E .e_shstrndx bits (ehdr bits f) = .ok idx)
    (hsz : E .e_shentsize bits (ehdr bits f) = .ok sz)
    (hoff : E .e_shoff bits (ehdr bits f) = .ok off)
    (hgt : E_SZ .Shdr bits < sz)
    (hent : off + idx * sz + sz ≤ f.length)
    (hssz : E .sh_size bits (bytes_at f (off + idx * sz) sz) = .ok ssz)
    (hsoff : E .sh_offset bits (bytes_at f (off + idx * sz) sz) = .ok soff)
    (hstr : soff + ssz ≤ f.length)
    (htab : off + n * sz ≤ f.length)
    (hfile : f.length < 2 ^ 63)
    (hh1 : heap sz = true) (hh2 : heap ssz = true) (hh3 : heap (n * sizeof_sect_t) = true) :
    ∃ l, scan_sections heap (fopen fs f) = .ok ⟨bits, n, bytes_at f soff ssz, l⟩ ∧
      l.length = n ∧
      ∀ i, i < n → ∃ d, l[i]? = some d ∧
        E .sh_name bits (bytes_at f (off + i * sz) sz) = .ok d.name ∧
        E .sh_size bits (bytes_at f (off + i * sz) sz) = .ok d.size ∧
        E .sh_offset bits (bytes_at f (off + i * sz) sz) = .ok d.offset := by
  obtain ⟨l, hl, hlen⟩ := read_sects_exists bits sz n f off (Nat.le_of_lt hgt) htab
  obtain ⟨-, hall⟩ := (read_sects_ok_iff _ _ _ _ _ _).mp hl
  refine ⟨l, scan_sections_ok_of heap f bits n idx sz off ssz soff l hmag hcls hhdr hn hidx hsz
    hoff hh1 hh2 hh3 (can_seek_of_le fs _ _ (by omega) hfile) (by omega) hssz hsoff
    (can_seek_of_le fs _ _ (by omega) hfile) (by omega) (can_seek_of_le fs _ _ (by omega) hfile)
    hl, hlen, ?_⟩
  intro i hi
  obtain ⟨-, d, hd, h1, h2, h3⟩ := hall i hi
  exact ⟨d, hd, h1, h2, h3⟩

/-- C15, witness: `e_shentsize = 72` in a class-64 image. -/
theorem entsize_not_checked_witness :
    E .e_shentsize 64 (ehdr 64 img_entsize72) = .ok 72 ∧ E_SZ .Shdr 64 = 64 ∧
      ∃ l, scan_sections heap_any (fopen fs_ext4 img_entsize72) =
          .ok ⟨64, 2, bytes_at img_entsize72 208 11, l⟩ ∧
        l.length = 2 ∧
        ∀ i, i < 2 → ∃ d, l[i]? = some d ∧
          E .sh_name 64 (bytes_at img_entsize72 (64 + i * 72) 72) = .ok d.name ∧
          E .sh_size 64 (bytes_at img_entsize72 (64 + i * 72) 72) = .ok d.size ∧
          E .sh_offset 64 (bytes_at img_entsize72 (64 + i * 72) 72) = .ok d.offset :=
  ⟨by rfl, by rfl,
    entsize_not_checked heap_any fs_ext4 img_entsize72 64 2 1 72 64 11 208
      (by rfl) (Or.inr ⟨by rfl, rfl⟩) (by decide) (by rfl) (by rfl) (by rfl) (by rfl)
      (by decide) (by decide) (by rfl) (by rfl) (by decide) (by decide) (by decide)
      rfl rfl rfl⟩

/-- C15, counterexample to the claim as stated: `e_shentsize` is 72, not the 64
bytes of `Elf64_Shdr`, and the run is not rejected: the entries are read 72 bytes
apart and the table is printed. -/
theorem entsize_72_prints :
    E .e_shentsize 64 (ehdr 64 img_entsize72) = .ok 72 ∧ E_SZ .Shdr 64 = 64 ∧
      scan_sections heap_any (fopen fs_ext4 img_entsize72) =
        .ok ⟨64, 2, [0] ++ dot_shstrtab ++ [0], [⟨0, 0, 0⟩, ⟨11, 208, 1⟩]⟩ ∧
      disp_sections heap_any (fopen fs_ext4 img_entsize72) =
        .ok [.title, .rule, .row 208 11 dot_shstrtab, .rule] :=
  ⟨by rfl, by rfl, by rfl, by rfl⟩

/-! ## C16: a section's range is not checked against the file -/

/-- C16: the run never compares a section's `sh_offset + sh_size` with the length
of the file. In this 273-byte image, whose string table is entry 2, the run
completes, on every file system, and descriptor 1 (".text") has offset 0x1000 and
size 0x200. -/
theorem range_not_enforced (fs : FileSys) :
    ∃ f s i d out, disp_sections heap_any (fopen fs f) = .ok out ∧
      scan_sections heap_any (fopen fs f) = .ok s ∧
      E .e_shstrndx s.bits (ehdr s.bits f) = .ok 2 ∧ i ≠ 2 ∧
      s.all_sects[i]? = some d ∧ f.length < d.offset + d.size := by
  have hscan : scan_sections heap_any (fopen fs img_beyond) =
      .ok ⟨64, 3, bytes_at img_beyond 256 17,
        [⟨0, 0, 0⟩, ⟨0x200, 0x1000, 1⟩, ⟨17, 256, 7⟩]⟩ :=
    scan_sections_ok_of heap_any img_beyond 64 3 2 64 64 17 256 _
      (by rfl) (Or.inr ⟨by rfl, rfl⟩) (by decide) (by rfl) (by rfl) (by rfl) (by rfl) rfl rfl rfl
      (can_seek_of_le fs _ _ (by decide) (by decide)) (by decide) (by rfl) (by rfl)
      (can_seek_of_le fs _ _ (by decide) (by decide)) (by decide)
      (can_seek_of_le fs _ _ (by decide) (by decide)) (by rfl)
  refine ⟨img_beyond, _, 1, ⟨0x200, 0x1000, 1⟩,
    [.title, .rule, .row 0x1000 0x200 dot_text, .row 256 17 dot_shstrtab, .rule],
    ?_, hscan, by rfl, by decide, by rfl, by decide⟩
  rw [disp_sections_of_scan_ok heap_any _ _ hscan]
  rfl

/-! ## C17: zero extension in the 32-bit layout -/

/-- C18 (as the code has it): when the scan completes, the file holds the whole
header of its class (52 or 64 bytes). When moreover the seek to the string-table
entry at `e_shoff + e_shstrndx * e_shentsize` succeeds (the offset is below `2^63`
and not above the largest offset the file system accepts), the file holds the
whole string-table entry when `e_shentsize > 0`, the whole string table when the
seek to its `sh_offset` succeeds and its `sh_size > 0`, and all `e_shnum` entries
when `e_shnum > 0` and `e_shentsize > 0`. -/
theorem completed_scan_in_bounds (heap : Nat → Bool) (fs : FileSys) (f : List Byte) (s : Sections)
    (off idx sz : Nat)
    (hscan : scan_sections heap (fopen fs f) = .ok s)
    (hoff : E .e_shoff s.bits (ehdr s.bits f) = .ok off)
    (hidx : E .e_shstrndx s.bits (ehdr s.bits f) = .ok idx)
    (hsz : E .e_shentsize s.bits (ehdr s.bits f) = .ok sz) :
    ((f[4]? = some ELFCLASS32 ∧ 52 ≤ f.length) ∨ (f[4]? = some ELFCLASS64 ∧ 64 ≤ f.length)) ∧
      (can_seek fs f.length (off + idx * sz) = true →
        (0 < sz → off + (idx + 1) * sz ≤ f.length) ∧
        (∃ soff ssz, E .sh_offset s.bits (bytes_at f (off + idx * sz) sz) = .ok soff ∧
          E .sh_size s.bits (bytes_at f (off + idx * sz) sz) = .ok ssz ∧
          (can_seek fs f.length soff = true → 0 < ssz → soff + ssz ≤ f.length)) ∧
        (0 < s.n_sections → 0 < sz → off + s.n_sections * sz ≤ f.length)) := by
  obtain ⟨-, -, hcls, hr⟩ := scan_ok_inv heap f s hscan
  obtain ⟨n, idx', sz', off', ssz, soff, l, hlen, -, hidx', hsz', hoff', -, -, -, hr1, hssz, hsoff,
    hr2, hl, hs⟩ := (read_sections_ok_iff heap s.bits f 16 s).mp hr
  have e1 : off' = off := Except.ok.inj (hoff'.symm.trans hoff)
  have e2 : sz' = sz := Except.ok.inj (hsz'.symm.trans hsz)
  have e3 : idx' = idx := Except.ok.inj (hidx'.symm.trans hidx)
  subst e1 e2 e3
  refine ⟨?_, ?_⟩
  · rcases hcls with ⟨hc, hb⟩ | ⟨hc, hb⟩
    · rw [hb] at hlen
      exact Or.inl ⟨hc, hlen⟩
    · rw [hb] at hlen
      exact Or.inr ⟨hc, hlen⟩
  intro hseek
  have hlt := can_seek_lt fs _ _ hseek
  have hm1 : idx' * sz' % 2 ^ 64 = idx' * sz' := Nat.mod_eq_of_lt (by omega)
  have hm2 : (off' + idx' * sz') % 2 ^ 64 = off' + idx' * sz' := Nat.mod_eq_of_lt (by omega)
  rw [hm1, hm2, seek_pos_of_can _ _ _ _ hseek] at hr1 hssz hsoff hr2 hl
  have hns : s.n_sections = n := congrArg Sections.n_sections hs
  refine ⟨?_, ⟨soff, ssz, hsoff, hssz, ?_⟩, ?_⟩
  · intro hpos
    have e : off' + (idx' + 1) * sz' = off' + idx' * sz' + sz' := by ring
    rw [e]
    omega
  · intro hso hpos
    rw [seek_pos_of_can _ _ _ _ hso] at hr2
    omega
  · intro hn hpos
    rw [hns]
    rw [hns] at hn
    rw [seek_pos_of_can _ _ _ _ (can_seek_mono fs _ _ off' (by omega) hseek)] at hl
    obtain ⟨-, hent⟩ := (read_sects_ok_iff _ _ _ _ _ _).mp hl
    obtain ⟨hlast, -⟩ := hent (n - 1) (by omega)
    have e : off' + n * sz' = off' + (n - 1) * sz' + sz' := by
      have : n = (n - 1) + 1 := by omega
      conv_lhs => rw [this]
      ring
    rw [e]
    omega

/-- C18, witness: the class-32 image of 143 bytes. -/
theorem completed_scan_in_bounds_witness :
    scan_sections heap_any (fopen fs_ext4 img32) =
        .ok ⟨32, 2, [0] ++ dot_shstrtab ++ [0], [⟨0, 0, 0⟩, ⟨11, 132, 1⟩]⟩ ∧
      52 ≤ img32.length ∧
      (0 < 40 → 52 + (1 + 1) * 40 ≤ img32.length) ∧
      (0 < 2 → 0 < 40 → 52 + 2 * 40 ≤ img32.length) :=
  have h := completed_scan_in_bounds heap_any fs_ext4 img32
    ⟨32, 2, [0] ++ dot_shstrtab ++ [0], [⟨0, 0, 0⟩, ⟨11, 132, 1⟩]⟩ 52 1 40
    (by rfl) (by rfl) (by rfl) (by rfl)
  have h2 := h.2 (by rfl)
  ⟨by rfl, by decide, h2.1, h2.2.2⟩

/-- C18, counterexample to the claim as stated: on a file system whose largest
offset is `2^44 - 4096` the run succeeds on this 203-byte class-64 image, whose
offsets are all below `2^63`, although its string table is declared with
`sh_size = 11 > 0` at `sh_offset = 2^44`: the file is shorter than
`sh_offset + sh_size`. The seek to `2^44` failed and the 11 bytes were read at
192, where the stream stood. -/
theorem far_strtab_scan_completes :
    img_far_strtab.length = 203 ∧
      E .e_shoff 64 (ehdr 64 img_far_strtab) = .ok 64 ∧
      E .e_shstrndx 64 (ehdr 64 img_far_strtab) = .ok 1 ∧
      E .e_shentsize 64 (ehdr 64 img_far_strtab) = .ok 64 ∧
      E .e_shnum 64 (ehdr 64 img_far_strtab) = .ok 2 ∧
      E .sh_offset 64 (bytes_at img_far_strtab (64 + 1 * 64) 64) = .ok (2 ^ 44) ∧
      E .sh_size 64 (bytes_at img_far_strtab (64 + 1 * 64) 64) = .ok 11 ∧
      2 ^ 44 < 2 ^ 63 ∧
      disp_sections heap_any (fopen fs_ext4 img_far_strtab) =
        .ok [.title, .rule, .row (2 ^ 44) 11 dot_shstrtab, .rule] ∧
      ¬ 2 ^ 44 + 11 ≤ img_far_strtab.length :=
  ⟨by rfl, by rfl, by rfl, by rfl, by rfl, by rfl, by rfl, by decide, by rfl, by decide⟩

/-! ## C19: header bytes the run does not look at -/

/-- C19 (as the code has it): two inputs of one length that differ only in header
bytes other than the magic, the class byte, `e_shoff`, `e_shentsize`, `e_shnum` and
`e_shstrndx` give the same outcome, the same stop or the same descriptors and the
same printed names, when every offset the run seeks to lies at or after the end of
the file header: `e_shoff`, the offset of the string-table entry
`e_shoff + e_shstrndx * e_shentsize` as computed modulo `2^64`, and the `sh_offset`
found in the entry the run reads as the string-table entry (the one at that offset
when the seek succeeds, the one right after the file header when it fails). -/
theorem ignored_header_bytes (heap : Nat → Bool) (fs : FileSys) (f g : List Byte)
    (hsame : f.length = g.length)
    (hdiff : ∀ i, f[i]? ≠ g[i]? → ignored_byte (hdr_bits f) i = true)
    (hclear : ∀ off idx sz, E .e_shoff (hdr_bits f) (ehdr (hdr_bits f) f) = .ok off →
      E .e_shstrndx (hdr_bits f) (ehdr (hdr_bits f) f) = .ok idx →
      E .e_shentsize (hdr_bits f) (ehdr (hdr_bits f) f) = .ok sz →
      E_SZ .Ehdr (hdr_bits f) ≤ off ∧
      E_SZ .Ehdr (hdr_bits f) ≤ (off + idx * sz % 2 ^ 64) % 2 ^ 64 ∧
      ∀ soff, E .sh_offset (hdr_bits f) (bytes_at f (seek_pos fs f.length
          (E_SZ .Ehdr (hdr_bits f)) ((off + idx * sz % 2 ^ 64) % 2 ^ 64)) sz) = .ok soff →
        E_SZ .Ehdr (hdr_bits f) ≤ soff) :
    scan_sections heap (fopen fs f) = scan_sections heap (fopen fs g) ∧
      disp_sections heap (fopen fs f) = disp_sections heap (fopen fs g) := by
  have hagree : ∀ i, ignored_byte (hdr_bits f) i = false → f[i]? = g[i]? := by
    intro i hi
    by_contra hne
    have := hdiff i hne
    rw [hi] at this
    cases this
  have h4 : f[4]? = g[4]? := hagree 4 (ignored_byte_low _ 4 (by decide))
  have htake : f.take 4 = g.take 4 := by
    apply List.ext_getElem?
    intro i
    simp only [List.getElem?_take]
    split
    · exact hagree i (ignored_byte_low _ i (by omega))
    · rfl
  have hscan : scan_sections heap (fopen fs f) = scan_sections heap (fopen fs g) := by
    rw [scan_sections_eq heap f, scan_sections_eq heap g, ← hsame, ← htake, ident_bits_eq,
      ident_bits_eq, ← h4]
    by_cases h16 : f.length < 16
    · rw [if_pos h16, if_pos h16]
    · rw [if_neg h16, if_neg h16]
      by_cases hm : f.take 4 ≠ magic
      · rw [if_pos hm, if_pos hm]
      · rw [if_neg hm, if_neg hm]
        by_cases hc1 : f[4]? = some 1
        · rw [if_pos hc1]
          have hb : hdr_bits f = 32 := by
            unfold hdr_bits
            exact if_pos hc1
          rw [hb] at hagree hclear
          exact read_sections_congr heap 32 f g 16 16 hsame hagree hclear
        · rw [if_neg hc1]
          by_cases hc2 : f[4]? = some 2
          · rw [if_pos hc2]
            have hb : hdr_bits f = 64 := by
              unfold hdr_bits
              exact if_neg hc1
            rw [hb] at hagree hclear
            exact read_sections_congr heap 64 f g 16 16 hsame hagree hclear
          · rw [if_neg hc2]
            rfl
  refine ⟨hscan, ?_⟩
  unfold disp_sections
  rw [hscan]

/-- C19, witness: `img32` and a copy with other values in `e_ident[5]`,
`e_ident[7]`, `e_type`, `e_machine`, `e_entry`, `e_flags` and `e_phnum` print the
same table. -/
theorem ignored_header_bytes_witness :
    img32 ≠ img32_other ∧ img32.length = img32_other.length ∧
      scan_sections heap_any (fopen fs_ext4 img32) =
        scan_sections heap_any (fopen fs_ext4 img32_other) ∧
      disp_sections heap_any (fopen fs_ext4 img32) =
        disp_sections heap_any (fopen fs_ext4 img32_other) ∧
      disp_sections heap_any (fopen fs_ext4 img32_other) =
        .ok [.title, .rule, .row 132 11 dot_shstrtab, .rule] :=
  have h := ignored_header_bytes heap_any fs_ext4 img32 img32_other (by rfl)
    (fun i hne => img32_other_differs i hne)
    (by
      intro off idx sz hoff hidx hsz
      have e1 : off = 52 :=
        Except.ok.inj (hoff.symm.trans (show E .e_shoff 32 (ehdr 32 img32) = .ok 52 from by rfl))
      have e2 : idx = 1 :=
        Except.ok.inj (hidx.symm.trans
          (show E .e_shstrndx 32 (ehdr 32 img32) = .ok 1 from by rfl))
      have e3 : sz = 40 :=
        Except.ok.inj (hsz.symm.trans
          (show E .e_shentsize 32 (ehdr 32 img32) = .ok 40 from by rfl))
      subst e1 e2 e3
      refine ⟨by decide, by decide, ?_⟩
      intro soff hsoff
      have e4 : soff = 132 :=
        Except.ok.inj (hsoff.symm.trans
          (show E .sh_offset 32 (bytes_at img32 (52 + 1 * 40) 40) = .ok 132 from by rfl))
      subst e4
      decide)
  ⟨by decide, by rfl, h.1, h.2, by rfl⟩

/-- C19, counterexample to the claim as stated: two 64-byte class-64 headers that
differ in byte 32 alone, the low byte of `e_phoff`. The table is empty
(`e_shnum = 0`) at `e_shoff = 2^64 - 64`, and with `e_shstrndx = 1`,
`e_shentsize = 64` the offset of the string-table entry wraps to 0: the header is
read as that entry, `e_entry` as its `sh_offset` (64, the end of the header) and
`e_phoff` as its `sh_size`. With `e_phoff = 0` the run prints an empty table, with
`e_phoff = 1` it stops with the read error. -/
theorem ignored_byte_changes_outcome :
    img_wrap_b = img_wrap_a.set 32 1 ∧ img_wrap_a.length = img_wrap_b.length ∧
      hdr_bits img_wrap_a = 64 ∧ ignored_byte 64 32 = true ∧
      E .e_shoff 64 (ehdr 64 img_wrap_a) = .ok (2 ^ 64 - 64) ∧
      E .e_shnum 64 (ehdr 64 img_wrap_a) = .ok 0 ∧
      E .e_shstrndx 64 (ehdr 64 img_wrap_a) = .ok 1 ∧
      E .e_shentsize 64 (ehdr 64 img_wrap_a) = .ok 64 ∧
      (2 ^ 64 - 64 + 1 * 64 % 2 ^ 64) % 2 ^ 64 = 0 ∧
      E .sh_offset 64 (bytes_at img_wrap_b 0 64) = .ok 64 ∧
      E .sh_size 64 (bytes_at img_wrap_b 0 64) = .ok 1 ∧
      disp_sections heap_any (fopen fs_ext4 img_wrap_a) = .ok [.title, .rule, .rule] ∧
      disp_sections heap_any (fopen fs_ext4 img_wrap_b) = .error .read_amount :=
  ⟨by rfl, by rfl, by rfl, by rfl, by rfl, by rfl, by rfl, by rfl, by decide, by rfl, by rfl,
    by rfl, by rfl⟩

end Sectview
